import Mathlib

/-!
Verification development for the loves-to.dev subdomain registry.

The repository reconciles declarative subdomain ownership files
(domains/*.json) against Cloudflare DNS state (scripts/deploy.js) and
validates the ownership files (scripts/validate.js and a second validator
variant).  This file gives a shallow embedding of those scripts and proves
the testable properties stated in the specification.

Conventions of the embedding:
* JavaScript strings are Lean String; all character-level operations
  (regex tests, includes, startsWith/endsWith, replace) are re-implemented
  over List Char exactly as the regexes/requirements in the source demand.
* A JS value that may be undefined (for example a missing records.CNAME
  field) is an Option.
* JS bare-object maps ({}) are association lists, together with the
  Object.prototype inherited keys, which a bare-object lookup can observe
  through its truthiness checks.
-/

/-! ## Generic character-list helpers (JS string primitives) -/

/-- Does the pattern occur at the head of the list?  (Basis for
JS String.startsWith and for substring search.) -/
def leadMatch : List Char → List Char → Bool
  | [], _ => true
  | _ :: _, [] => false
  | a :: as, b :: bs => a = b && leadMatch as bs

/-- Does the pattern occur contiguously anywhere in the list?
(JS String.includes.) -/
def subListMatch (pat : List Char) : List Char → Bool
  | [] => pat.isEmpty
  | c :: rest => leadMatch pat (c :: rest) || subListMatch pat rest

/-- JS s.includes(pat). -/
def containsSubstr (s pat : String) : Bool :=
  subListMatch pat.data s.data

/-- JS s.startsWith(pat). -/
def strStartsWith (s pat : String) : Bool :=
  leadMatch pat.data s.data

/-- JS s.endsWith(pat). -/
def strEndsWith (s pat : String) : Bool :=
  leadMatch pat.data.reverse s.data.reverse

/-- Remove the first occurrence of a pattern from a list
(JS s.replace(pat, ""), which only replaces the first occurrence). -/
def removeFirstOcc (pat : List Char) : List Char → List Char
  | [] => []
  | c :: rest =>
    if leadMatch pat (c :: rest) then (c :: rest).drop pat.length
    else c :: removeFirstOcc pat rest

/-- JS file.replace(".json", ""). -/
def stripJsonExt (s : String) : String :=
  ⟨removeFirstOcc ".json".data s.data⟩

/-- First-match lookup in an association list (one entry per own key of a
JS object, in insertion order). -/
def accGet {α : Type} (k : String) : List (String × α) → Option α
  | [] => none
  | (k', v) :: rest => if k' = k then some v else accGet k rest

/-- JS obj[k] = v on a bare object: overwrite the own key if present,
otherwise append, preserving insertion order. -/
def accSet {α : Type} (acc : List (String × α)) (k : String) (v : α) :
    List (String × α) :=
  match acc with
  | [] => [(k, v)]
  | (k', v') :: rest =>
    if k' = k then (k, v) :: rest else (k', v') :: accSet rest k v

/-! ## Deploy script data model (scripts/deploy.js) -/

/-- One CNAME record as returned by the provider listing
(/zones/:id/dns_records?type=CNAME).  The id is the provider-assigned
opaque handle; content is the alias target; comment is the provider-level
record comment. -/
structure DNSRecord where
  id : Nat
  name : String
  content : Option String
  comment : Option String
deriving DecidableEq, Repr

/-- One desired entry of getDomainFiles: a reserved name from the config
or a user domains/*.json file.  target is content.records.CNAME, which may
be a missing value. -/
structure DomainEntry where
  username : String
  subdomain : String
  target : Option String
  type : String
deriving DecidableEq, Repr

/-- The part of a domains/*.json file that deploy.js reads.
malformed: JSON.parse throws.  noRecords: the file parses but
content.records is missing or null, so reading content.records.CNAME
throws a TypeError (caught by the same try block).  withRecords c: the
records value is present; c is records.CNAME when that is a string,
none when the CNAME field is absent. -/
inductive DomainFileData where
  | malformed
  | noRecords
  | withRecords (cname : Option String)
deriving DecidableEq, Repr

/-- config/reserved.json and config/trusted.json as loaded by loadConfig. -/
structure DeployConfig where
  reserved : List String
  trusted : List String
deriving DecidableEq, Repr

/-- The ownership marker embedded in record comments. -/
def managedTag : String := "Managed by loves-to.dev"

/-- record.comment && record.comment.includes(managedTag).  A missing or
empty comment is falsy in JS, and an empty string never contains the
non-empty tag, so both collapse to the same test. -/
def commentHasTag (c : Option String) : Bool :=
  match c with
  | none => false
  | some s => containsSubstr s managedTag

/-- The getExistingRecords filter predicate: a subdomain of the zone,
not the apex, carrying the ownership tag. -/
def isManagedRec (domainName : String) (r : DNSRecord) : Bool :=
  strEndsWith r.name ("." ++ domainName) && decide (r.name ≠ domainName) &&
    commentHasTag r.comment

/-- getExistingRecords: filter the provider CNAME listing to managed
subdomain records. -/
def getExistingRecords (domainName : String) (records : List DNSRecord) :
    List DNSRecord :=
  records.filter (fun r => isManagedRec domainName r)

/-- getDomainFiles: reserved entries from the config (pointing at the
reserved page) followed by one user entry per parseable domains/*.json
file; a file whose parse or records.CNAME access throws is warned about
and dropped (filter(Boolean)). -/
def getDomainFiles (domainName : String) (config : DeployConfig)
    (files : List (String × DomainFileData)) : List DomainEntry :=
  (config.reserved.map (fun sub =>
    { username := sub
      subdomain := sub ++ "." ++ domainName
      target := some ("reserved." ++ domainName)
      type := "reserved" })) ++
  (((files.filter (fun f => strEndsWith f.1 ".json")).filterMap (fun f =>
    match f.2 with
    | DomainFileData.malformed => none
    | DomainFileData.noRecords => none
    | DomainFileData.withRecords c =>
      some { username := stripJsonExt f.1
             subdomain := stripJsonExt f.1 ++ "." ++ domainName
             target := c
             type := "user" })))

/-- Lookup in the existingMap built by Map.set over the record list:
a later set for the same name overwrites an earlier one, so the last
record with the name wins. -/
def mapGet (records : List DNSRecord) (n : String) : Option DNSRecord :=
  match records with
  | [] => none
  | r :: rest =>
    match mapGet rest n with
    | some r' => some r'
    | none => if r.name = n then some r else none

/-- A provider write issued by deployDNS. -/
inductive DNSOp where
  | create (name : String) (content : Option String) (type : String)
  | update (id : Nat) (name : String) (content : Option String) (type : String)
  | delete (id : Nat) (name : String)
deriving DecidableEq, Repr

/-- The fully-qualified name an operation targets. -/
def opName : DNSOp → String
  | DNSOp.create n _ _ => n
  | DNSOp.update _ n _ _ => n
  | DNSOp.delete _ n => n

/-- The body of the desired-records loop of deployDNS: update when the
existing content differs, nothing when it matches, create when no managed
record has the name. -/
def opFor (existing : List DNSRecord) (d : DomainEntry) : Option DNSOp :=
  match mapGet existing d.subdomain with
  | some r =>
    if r.content = d.target then none
    else some (DNSOp.update r.id d.subdomain d.target d.type)
  | none => some (DNSOp.create d.subdomain d.target d.type)

/-- The provider calls issued by the desired-records loop, in file order. -/
def desiredOps (existing : List DNSRecord) (domains : List DomainEntry) :
    List DNSOp :=
  domains.filterMap (opFor existing)

/-- The existing records that the deletion loop removes: fetched records
whose name no current domain file claims (desiredMap.has is false). -/
def staleRecords (existing : List DNSRecord) (domains : List DomainEntry) :
    List DNSRecord :=
  existing.filter (fun r => !(domains.any (fun d => d.subdomain = r.name)))

/-- The provider calls issued by the deletion loop. -/
def deleteOps (existing : List DNSRecord) (domains : List DomainEntry) :
    List DNSOp :=
  (staleRecords existing domains).map (fun r => DNSOp.delete r.id r.name)

/-- All provider calls of one deployDNS run, in issue order. -/
def deployOps (existing : List DNSRecord) (domains : List DomainEntry) :
    List DNSOp :=
  desiredOps existing domains ++ deleteOps existing domains

/-- The created counter of the run summary. -/
def createdCount (ops : List DNSOp) : Nat :=
  ops.countP (fun o => match o with | DNSOp.create _ _ _ => true | _ => false)

/-- The updated counter of the run summary. -/
def updatedCount (ops : List DNSOp) : Nat :=
  ops.countP (fun o => match o with | DNSOp.update _ _ _ _ => true | _ => false)

/-- The deleted counter of the run summary. -/
def deletedCount (ops : List DNSOp) : Nat :=
  ops.countP (fun o => match o with | DNSOp.delete _ _ => true | _ => false)

/-- The comment written on created and updated records:
"Managed by loves-to.dev (type) - timestamp". -/
def mkComment (ty ts : String) : String :=
  managedTag ++ " (" ++ ty ++ ") - " ++ ts

/-- A provider-side fresh record id: larger than every id in the zone. -/
def freshId (state : List DNSRecord) : Nat :=
  state.foldr (fun r m => max r.id m) 0 + 1

/-- Provider semantics of one call, as deploy.js relies on them: POST
appends a new record, PUT rewrites the record with the given id in place,
DELETE removes it.  ts is the timestamp baked into the comment. -/
def applyOp (ts : String) (state : List DNSRecord) : DNSOp → List DNSRecord
  | DNSOp.create n c ty =>
    state ++ [{ id := freshId state, name := n, content := c
                comment := some (mkComment ty ts) }]
  | DNSOp.update i n c ty =>
    state.map (fun r =>
      if r.id = i then { id := i, name := n, content := c
                         comment := some (mkComment ty ts) }
      else r)
  | DNSOp.delete i _ =>
    state.filter (fun r => r.id ≠ i)

/-- Apply a run's calls in order. -/
def applyOps (ts : String) (state : List DNSRecord) (ops : List DNSOp) :
    List DNSRecord :=
  ops.foldl (applyOp ts) state

/-- Execute the calls of a run against a failure oracle.  A throwing call
is the last one attempted: the rejection propagates out of deployDNS's
await into its try/catch, which logs and calls process.exit(1). -/
def runOps (fails : DNSOp → Bool) : List DNSOp → List DNSOp × Option DNSOp
  | [] => ([], none)
  | op :: rest =>
    if fails op then ([op], some op)
    else
      match runOps fails rest with
      | (att, f) => (op :: att, f)

/-- Observable outcome of one deployDNS invocation: the calls attempted,
the call that threw (if any), whether the final summary was printed, and
the process exit code. -/
structure RunReport where
  attempted : List DNSOp
  failedOp : Option DNSOp
  summaryShown : Bool
  exitCode : Nat
deriving DecidableEq, Repr

/-- One deployDNS invocation over a failure oracle: on the first throwing
provider call the catch block exits the process with code 1 and the
summary is never printed; otherwise every call runs and the summary is
printed. -/
def deployRun (fails : DNSOp → Bool) (existing : List DNSRecord)
    (domains : List DomainEntry) : RunReport :=
  match runOps fails (deployOps existing domains) with
  | (att, some op) =>
    { attempted := att, failedOp := some op, summaryShown := false
      exitCode := 1 }
  | (att, none) =>
    { attempted := att, failedOp := none, summaryShown := true
      exitCode := 0 }

/-! ## Validator data model (scripts/validate.js and the second validator
variant) -/

/-- Reject reasons of isValidUsername, shared verbatim by both validator
variants. -/
def charsetMsg : String := "must be lowercase, alphanumeric, and may include hyphens only"

/-- Reason for a leading or trailing hyphen. -/
def edgeHyphenMsg : String := "cannot start or end with hyphen"

/-- Reason for consecutive hyphens. -/
def doubleHyphenMsg : String := "cannot contain consecutive hyphens"

/-- Reason for a length outside 1..63. -/
def lengthMsg : String := "must be between 1 and 63 characters"

/-- Reason for a reserved username (scripts/validate.js variant only). -/
def reservedMsg : String := "is a reserved username"

/-- Result of isValidUsername: { valid } or { valid: false, reason }. -/
structure ValidityCheck where
  valid : Bool
  reason : Option String
deriving DecidableEq, Repr

/-- One character of the username character class [a-z0-9-]. -/
def lowerAlnumHyphen (c : Char) : Bool :=
  ('a' ≤ c && c ≤ 'z') || ('0' ≤ c && c ≤ '9') || c = '-'

/-- The test of /^[a-z0-9-]+$/: non-empty and every character in class. -/
def usernameRegexTest (u : String) : Bool :=
  !u.data.isEmpty && u.data.all lowerAlnumHyphen

/-- isValidUsername as in the second validator variant: character class,
hyphen placement, consecutive hyphens, then DNS label length. -/
def isValidUsername (username : String) : ValidityCheck :=
  if !usernameRegexTest username then
    { valid := false, reason := some charsetMsg }
  else if strStartsWith username "-" || strEndsWith username "-" then
    { valid := false, reason := some edgeHyphenMsg }
  else if containsSubstr username "--" then
    { valid := false, reason := some doubleHyphenMsg }
  else if username.length < 1 || username.length > 63 then
    { valid := false, reason := some lengthMsg }
  else
    { valid := true, reason := none }

/-- isValidUsername as in scripts/validate.js: the same chain followed by
a reserved-name check against the domains/reserved/ listing. -/
def scriptsIsValidUsername (reservedUsernames : List String)
    (username : String) : ValidityCheck :=
  match isValidUsername username with
  | { valid := true, reason := _ } =>
    if reservedUsernames.contains username then
      { valid := false, reason := some reservedMsg }
    else { valid := true, reason := none }
  | v => v

/-- JS \s for the ASCII inputs at hand: space, tab, newline, carriage
return, vertical tab, form feed. -/
def isSpaceCh (c : Char) : Bool :=
  c = ' ' || c = '\t' || c = '\n' || c = '\r' || c = '\x0b' || c = '\x0c'

/-- One character of the email atom class [^\s@]. -/
def emailAtomCh (c : Char) : Bool :=
  !isSpaceCh c && !(c = '@')

/-- Split at the first '@', if any. -/
def splitAtFirstAt : List Char → Option (List Char × List Char)
  | [] => none
  | c :: rest =>
    if c = '@' then some ([], rest)
    else
      match splitAtFirstAt rest with
      | none => none
      | some (a, b) => some (c :: a, b)

/-- Does the list contain a '.' that is neither its first nor its last
element?  (Matchability of [^\s@]+\.[^\s@]+ once all characters are known
to be in the atom class: some split around an internal dot exists.) -/
def hasInternalDot : List Char → Bool
  | [] => false
  | _ :: rest => hasInternalDotTail rest
where
  hasInternalDotTail : List Char → Bool
    | [] => false
    | c :: rest => (c = '.' && !rest.isEmpty) || hasInternalDotTail rest

/-- isValidEmail: the test of /^[^\s@]+@[^\s@]+\.[^\s@]+$/ plus the
254-character cap.  The part before the first '@' and everything after it
must be atom characters, and the tail must contain an internal dot. -/
def isValidEmail (email : String) : Bool :=
  (match splitAtFirstAt email.data with
   | none => false
   | some (locPart, rest) =>
     !locPart.isEmpty && locPart.all emailAtomCh &&
       !rest.isEmpty && rest.all emailAtomCh && hasInternalDot rest) &&
  decide (email.length ≤ 254)

/-- An alphanumeric character [a-zA-Z0-9]. -/
def alnumCh (c : Char) : Bool :=
  ('a' ≤ c && c ≤ 'z') || ('A' ≤ c && c ≤ 'Z') || ('0' ≤ c && c ≤ '9')

/-- A domain label character [a-zA-Z0-9-]. -/
def domainLabelCh (c : Char) : Bool :=
  alnumCh c || c = '-'

/-- One dot-separated label of the CNAME domain regex
[a-zA-Z0-9]([a-zA-Z0-9-]\x7b0,61\x7d[a-zA-Z0-9])?: alphanumeric ends, up
to 61 label characters between them, 63 characters in all. -/
def domainLabelOk (l : List Char) : Bool :=
  match l with
  | [] => false
  | c :: rest =>
    alnumCh c &&
      (match rest.getLast? with
       | none => true
       | some d =>
         alnumCh d && rest.dropLast.all domainLabelCh &&
           decide (rest.length ≤ 62))

/-- Split a character list on '.' (the separators of the domain regex;
'.' cannot occur inside a label). -/
def splitDot : List Char → List (List Char)
  | [] => [[]]
  | c :: rest =>
    if c = '.' then [] :: splitDot rest
    else
      match splitDot rest with
      | [] => [[c]]
      | g :: gs => (c :: g) :: gs

/-- isValidDomain: every dot-separated label matches, the domain contains
a dot, and it is at most 253 characters long. -/
def isValidDomain (domain : String) : Bool :=
  (splitDot domain.data).all domainLabelOk && containsSubstr domain "." &&
    decide (domain.length ≤ 253)

/-! ### The cross-file checks of the second validator variant

The per-file accumulators (usernames, userDomainCount) are JS bare
objects.  A lookup obj[k] on a bare object that has no own key k still
finds the members Object.prototype provides, and every one of those is
truthy; this is observable through the truthiness tests of
checkForDuplicates and checkDomainLimits, so the embedding carries it. -/

/-- The property names a bare JS object inherits from Object.prototype
(all bound to truthy function or object values). -/
def objProtoKeys : List String :=
  ["constructor", "hasOwnProperty", "isPrototypeOf", "propertyIsEnumerable",
   "toLocaleString", "toString", "valueOf", "__proto__",
   "__defineGetter__", "__defineSetter__", "__lookupGetter__",
   "__lookupSetter__"]

/-- A value observed by reading usernames[u]: an own entry (a file path
string) or an inherited Object.prototype member. -/
inductive JsPathVal where
  | path (p : String)
  | inherited
deriving DecidableEq, Repr

/-- Reading usernames[u]: the own entry if one exists, otherwise the
inherited member for an Object.prototype name, otherwise undefined. -/
def jsObjGet (acc : List (String × String)) (k : String) : Option JsPathVal :=
  match accGet k acc with
  | some p => some (JsPathVal.path p)
  | none => if objProtoKeys.contains k then some JsPathVal.inherited else none

/-- One entry of the duplicates output: the username and the two values
pushed for it. -/
structure DupEntry where
  username : String
  files : List JsPathVal
deriving DecidableEq, Repr

/-- The forEach body of checkForDuplicates, with the usernames object as
accumulator.  A file without a truthy username is skipped; a truthy
lookup pushes a duplicate pairing the stored value with this file's path;
otherwise the path is stored.  (Assigning to the "__proto__" key is
silently dropped by JS, but that key's lookup is always truthy, so the
assignment branch is unreachable for it and the model stays exact.) -/
def dupsGo : List (String × Option String) → List (String × String) →
    List DupEntry
  | [], _ => []
  | f :: rest, acc =>
    match f.2 with
    | none => dupsGo rest acc
    | some u =>
      if u = "" then dupsGo rest acc
      else
        match jsObjGet acc u with
        | some (JsPathVal.path p) =>
          if p = "" then dupsGo rest (accSet acc u f.1)
          else { username := u, files := [JsPathVal.path p, JsPathVal.path f.1] }
            :: dupsGo rest acc
        | some JsPathVal.inherited =>
          { username := u, files := [JsPathVal.inherited, JsPathVal.path f.1] }
            :: dupsGo rest acc
        | none => dupsGo rest (accSet acc u f.1)

/-- checkForDuplicates over (filePath, data?.owner?.username) pairs. -/
def checkForDuplicates (files : List (String × Option String)) :
    List DupEntry :=
  dupsGo files []

/-- A value stored in userDomainCount: a number, or the non-numeric
string produced when the seed of the count was an inherited
Object.prototype member (a function concatenated with "1" stays
non-numeric under further additions). -/
inductive JsCount where
  | num (n : Nat)
  | junk
deriving DecidableEq, Repr

/-- Reading userDomainCount[u], with the prototype chain. -/
def jsCountGet (acc : List (String × JsCount)) (k : String) : Option JsCount :=
  match accGet k acc with
  | some v => some v
  | none => if objProtoKeys.contains k then some JsCount.junk else none

/-- (userDomainCount[username] || 0) + 1.  undefined and 0 are falsy and
restart from 0; a positive number increments; an inherited function or a
string built from one concatenates to another non-numeric string. -/
def jsIncr : Option JsCount → JsCount
  | none => JsCount.num 1
  | some (JsCount.num n) => if n = 0 then JsCount.num 1 else JsCount.num (n + 1)
  | some JsCount.junk => JsCount.junk

/-- count > 1 in JS: numeric comparison on numbers; a non-numeric string
converts to NaN and every NaN comparison is false. -/
def jsCountGt1 : JsCount → Bool
  | JsCount.num n => 1 < n
  | JsCount.junk => false

/-- Rendering of the count inside the violation reason.  Only numeric
counts ever reach a violation (jsCountGt1 rejects junk). -/
def jsCountStr : JsCount → String
  | JsCount.num n => toString n
  | JsCount.junk => "NaN"

/-- One domain-limit violation. -/
structure LimitViolation where
  username : String
  count : JsCount
  reason : String
deriving DecidableEq, Repr

/-- One iteration of the userDomainCount accumulation loop. -/
def countStep (acc : List (String × JsCount)) (f : String × Option String) :
    List (String × JsCount) :=
  match f.2 with
  | none => acc
  | some u =>
    if u = "" then acc
    else accSet acc u (jsIncr (jsCountGet acc u))

/-- The userDomainCount accumulation loop of checkDomainLimits. -/
def countFold (files : List (String × Option String)) :
    List (String × JsCount) :=
  files.foldl countStep []

/-- checkDomainLimits: count declarations per owner username, then report
every owner that is not trusted and holds more than one. -/
def checkDomainLimits (files : List (String × Option String))
    (trusted : List String) : List LimitViolation :=
  (countFold files).filterMap (fun uc =>
    if trusted.contains uc.1 then none
    else if jsCountGt1 uc.2 then
      some { username := uc.1, count := uc.2
             reason := "User \"" ++ uc.1 ++ "\" has " ++ jsCountStr uc.2 ++
               " domains but is not in trusted list (limit: 1)" }
    else none)

/-! ### Per-file validation (scripts/validate.js) -/

/-- The owner object of a declaration file.  none in a field means the
field is absent or not a string; some "" is a present empty string, which
the falsiness tests treat like a missing field. -/
structure OwnerData where
  username : Option String
  email : Option String
deriving DecidableEq, Repr

/-- The records object of a declaration file as validate.js reads it. -/
structure RecordsData where
  cname : Option String
deriving DecidableEq, Repr

/-- A declaration file as validate.js sees it after JSON.parse: either
unparsable, or parsed with optional owner and records objects. -/
inductive DomainFileJson where
  | malformed
  | parsed (owner : Option OwnerData) (records : Option RecordsData)
deriving DecidableEq, Repr

/-- validateDomainFile's result: success and collected diagnostics. -/
structure ValResult where
  success : Bool
  errors : List String
deriving DecidableEq, Repr

/-- The username checks of validateDomainFile: filename binding, then
format (including the reserved check of scripts/validate.js). -/
def usernameErrors (reservedUsernames : List String) (filename : String)
    (u : String) : List String :=
  (if filename = u then []
   else ["Filename \"" ++ filename ++ "\" must match username \"" ++ u ++ "\""]) ++
  (match scriptsIsValidUsername reservedUsernames u with
   | { valid := true, reason := _ } => []
   | { valid := false, reason := r } =>
     ["Invalid username \"" ++ u ++ "\": " ++ r.getD ""])

/-- validateDomainFile of scripts/validate.js: parse, owner structure,
username, email, records and CNAME checks, all diagnostics collected.
The function takes no requester identity: nothing ties the submitting
identity to owner.username. -/
def validateDomainFile (reservedUsernames : List String) (filename : String)
    (file : DomainFileJson) : ValResult :=
  match file with
  | DomainFileJson.malformed =>
    { success := false, errors := ["Invalid JSON format"] }
  | DomainFileJson.parsed owner records =>
    let ownerErrs :=
      match owner with
      | none => ["Missing or invalid \"owner\" object"]
      | some o =>
        (match o.username with
         | none => ["Missing or invalid \"owner.username\" field"]
         | some u =>
           if u = "" then ["Missing or invalid \"owner.username\" field"]
           else usernameErrors reservedUsernames filename u) ++
        (match o.email with
         | none => ["Missing or invalid \"owner.email\" field"]
         | some e =>
           if e = "" then ["Missing or invalid \"owner.email\" field"]
           else if isValidEmail e then []
           else ["Invalid email address: " ++ e])
    let recordErrs :=
      match records with
      | none => ["Missing or invalid \"records\" object"]
      | some r =>
        match r.cname with
        | none => ["Missing or invalid \"records.CNAME\" field"]
        | some c =>
          if c = "" then ["Missing or invalid \"records.CNAME\" field"]
          else if isValidDomain c then []
          else ["Invalid CNAME domain: " ++ c]
    { success := (ownerErrs ++ recordErrs).isEmpty
      errors := ownerErrs ++ recordErrs }

/-! ## String and list lemmas -/

/-- String concatenation concatenates the character data. -/
theorem strDataAppend (a b : String) : (a ++ b).data = a.data ++ b.data := rfl

/-- The character data of the dot string. -/
theorem dotData : (String.data ".") = ['.'] := rfl

/-- A list is a leading match of itself followed by anything. -/
theorem leadMatch_append (l r : List Char) : leadMatch l (l ++ r) = true := by
  induction l with
  | nil => rfl
  | cons c cs ih => simp [leadMatch, ih]

/-- A list occurs in itself followed by anything. -/
theorem subListMatch_append (l r : List Char) : subListMatch l (l ++ r) = true := by
  cases l with
  | nil => cases r <;> simp [subListMatch, leadMatch]
  | cons c cs => simp [subListMatch, leadMatch, leadMatch_append]

/-- A string contains each of its leading segments. -/
theorem containsSubstr_left (a b : String) : containsSubstr (a ++ b) a = true := by
  unfold containsSubstr
  rw [strDataAppend]
  exact subListMatch_append a.data b.data

/-- A string ends with a suffix of its character data. -/
theorem strEndsWith_suffix (s p : String) (l : List Char)
    (h : s.data = l ++ p.data) : strEndsWith s p = true := by
  unfold strEndsWith
  rw [h, List.reverse_append]
  exact leadMatch_append _ _

/-- A name of the form label.zone is distinct from the zone. -/
theorem ne_zone_of_suffix (Z n : String)
    (h : ∃ l, n.data = l ++ ('.' :: Z.data)) : n ≠ Z := by
  obtain ⟨l, hl⟩ := h
  intro he
  subst he
  have hlen := congrArg List.length hl
  simp [List.length_append] at hlen
  omega

/-- The comment written by create and update calls carries the tag. -/
theorem commentHasTag_mkComment (ty ts : String) :
    commentHasTag (some (mkComment ty ts)) = true := by
  show containsSubstr (mkComment ty ts) managedTag = true
  unfold containsSubstr mkComment
  have h : ((((managedTag ++ " (") ++ ty) ++ ") - ") ++ ts).data =
      managedTag.data ++ (((" (".data ++ ty.data) ++ ") - ".data) ++ ts.data) := by
    simp [strDataAppend, List.append_assoc]
  rw [h]
  exact subListMatch_append _ _

/-- Every subdomain built by getDomainFiles ends in dot-zone. -/
theorem getDomainFiles_shape (Z : String) (config : DeployConfig)
    (files : List (String × DomainFileData)) :
    ∀ d ∈ getDomainFiles Z config files,
      ∃ l, d.subdomain.data = l ++ ('.' :: Z.data) := by
  intro d hd
  unfold getDomainFiles at hd
  rw [List.mem_append] at hd
  cases hd with
  | inl h =>
    obtain ⟨sub, _, he⟩ := List.mem_map.mp h
    subst he
    exact ⟨sub.data, by simp [strDataAppend, dotData, List.append_assoc]⟩
  | inr h =>
    obtain ⟨f, _, he⟩ := List.mem_filterMap.mp h
    cases hf2 : f.2 with
    | malformed => rw [hf2] at he; simp at he
    | noRecords => rw [hf2] at he; simp at he
    | withRecords c =>
      rw [hf2] at he
      simp only [Option.some.injEq] at he
      subst he
      exact ⟨(stripJsonExt f.1).data, by simp [strDataAppend, dotData, List.append_assoc]⟩

/-! ## mapGet lemmas -/

/-- A successful map lookup returns a member record bearing the name. -/
theorem mapGet_eq_some {l : List DNSRecord} {n : String} {r : DNSRecord}
    (h : mapGet l n = some r) : r ∈ l ∧ r.name = n := by
  induction l with
  | nil => simp [mapGet] at h
  | cons a rest ih =>
    unfold mapGet at h
    cases hr : mapGet rest n with
    | some r' =>
      rw [hr] at h
      cases h
      have hih := ih hr
      exact ⟨List.mem_cons_of_mem _ hih.1, hih.2⟩
    | none =>
      rw [hr] at h
      by_cases hn : a.name = n
      · simp only [hn, if_pos] at h
        cases h
        exact ⟨List.mem_cons_self _ _, hn⟩
      · simp [hn] at h

/-- A record with the name makes the lookup succeed. -/
theorem mapGet_isSome_of_mem {l : List DNSRecord} {n : String} {r : DNSRecord}
    (hr : r ∈ l) (hn : r.name = n) : ∃ r', mapGet l n = some r' := by
  induction l with
  | nil => cases hr
  | cons a rest ih =>
    unfold mapGet
    cases hm : mapGet rest n with
    | some r' => exact ⟨r', rfl⟩
    | none =>
      rcases List.mem_cons.mp hr with he | hm2
      · subst he
        simp [hn]
      · obtain ⟨r', hr'⟩ := ih hm2
        rw [hr'] at hm
        cases hm

/-- A failed lookup means no record bears the name. -/
theorem mapGet_none {l : List DNSRecord} {n : String}
    (h : mapGet l n = none) : ∀ r ∈ l, r.name ≠ n := by
  intro r hr hn
  obtain ⟨r', hr'⟩ := mapGet_isSome_of_mem hr hn
  rw [h] at hr'
  cases hr'

/-- Lookup over an append when the second list holds the name. -/
theorem mapGet_append_some {l₂ : List DNSRecord} {n : String} {r : DNSRecord}
    (h : mapGet l₂ n = some r) : ∀ l₁, mapGet (l₁ ++ l₂) n = some r := by
  intro l₁
  induction l₁ with
  | nil => rw [List.nil_append]; exact h
  | cons a rest ih =>
    rw [List.cons_append]
    show (match mapGet (rest ++ l₂) n with
          | some r' => some r'
          | none => if a.name = n then some a else none) = some r
    rw [ih]

/-- Lookup over an append when the second list lacks the name. -/
theorem mapGet_append_none {l₂ : List DNSRecord} {n : String}
    (h : mapGet l₂ n = none) : ∀ l₁, mapGet (l₁ ++ l₂) n = mapGet l₁ n := by
  intro l₁
  induction l₁ with
  | nil => rw [List.nil_append]; exact h
  | cons a rest ih =>
    rw [List.cons_append]
    show (match mapGet (rest ++ l₂) n with
          | some r' => some r'
          | none => if a.name = n then some a else none) =
      (match mapGet rest n with
       | some r' => some r'
       | none => if a.name = n then some a else none)
    rw [ih]

/-- Filtering away only records with other names does not change a
lookup. -/
theorem mapGet_filter_of_names (p : DNSRecord → Bool) (l : List DNSRecord)
    (n : String) (h : ∀ q ∈ l, p q = false → q.name ≠ n) :
    mapGet (l.filter p) n = mapGet l n := by
  induction l with
  | nil => rfl
  | cons a rest ih =>
    have hrest : mapGet (rest.filter p) n = mapGet rest n :=
      ih (fun q hq => h q (List.mem_cons_of_mem _ hq))
    by_cases hp : p a
    · rw [List.filter_cons_of_pos hp]
      unfold mapGet
      rw [hrest]
    · rw [List.filter_cons_of_neg (by simp [hp])]
      rw [hrest]
      have han : a.name ≠ n := h a (List.mem_cons_self _ _) (by simp [hp])
      show mapGet rest n =
        (match mapGet rest n with
         | some r' => some r'
         | none => if a.name = n then some a else none)
      cases hm : mapGet rest n with
      | some r => rfl
      | none => simp [han]

/-- Two filters of the same list commute. -/
theorem filter_comm_rec (p q : DNSRecord → Bool) (l : List DNSRecord) :
    (l.filter p).filter q = (l.filter q).filter p := by
  induction l with
  | nil => rfl
  | cons a rest ih =>
    by_cases hp : p a <;> by_cases hq : q a <;>
      simp [List.filter_cons, hp, hq, ih]

/-! ## applyOps lemmas -/

/-- Applying an appended list of calls applies them in two stages. -/
theorem applyOps_append (ts : String) (s : List DNSRecord)
    (ops₁ ops₂ : List DNSOp) :
    applyOps ts s (ops₁ ++ ops₂) = applyOps ts (applyOps ts s ops₁) ops₂ :=
  List.foldl_append _ _ _ _

/-- Applying a batch of deletes keeps exactly the records whose id is not
deleted. -/
theorem applyOps_deletes (ts : String) (L : List DNSRecord) :
    ∀ s : List DNSRecord,
    applyOps ts s (L.map (fun r => DNSOp.delete r.id r.name)) =
      s.filter (fun q => L.all (fun r => q.id ≠ r.id)) := by
  induction L with
  | nil =>
    intro s
    simp [applyOps, List.filter_eq_self]
  | cons r rest ih =>
    intro s
    rw [List.map_cons]
    show applyOps ts (applyOp ts s (DNSOp.delete r.id r.name)) _ = _
    rw [show applyOp ts s (DNSOp.delete r.id r.name) =
        s.filter (fun q => q.id ≠ r.id) from rfl]
    rw [ih]
    rw [List.filter_filter]
    apply List.filter_congr
    intro q _
    rw [List.all_cons]
    rw [Bool.and_comm]

/-- Every record id is below the provider's fresh id. -/
theorem id_lt_freshId {s : List DNSRecord} {r : DNSRecord} (h : r ∈ s) :
    r.id < freshId s := by
  unfold freshId
  have key : ∀ t : List DNSRecord, r ∈ t →
      r.id ≤ t.foldr (fun r m => max r.id m) 0 := by
    intro t
    induction t with
    | nil => intro h2; cases h2
    | cons a rest ih =>
      intro h2
      rw [List.foldr_cons]
      rcases List.mem_cons.mp h2 with he | hm
      · subst he; exact Nat.le_max_left _ _
      · exact Nat.le_trans (ih hm) (Nat.le_max_right _ _)
  have := key s h
  omega

/-! ## The desired-records phase of deployDNS -/

/-- Records with equal ids in an id-unique zone are equal. -/
theorem nodup_ids_inj {s : List DNSRecord} {q r : DNSRecord}
    (hn : (s.map (fun x => x.id)).Nodup) (hq : q ∈ s) (hr : r ∈ s)
    (h : q.id = r.id) : q = r :=
  List.inj_on_of_nodup_map hn hq hr h

/-- In an id-unique zone, records around a member have other ids. -/
theorem nodup_ids_split {u v : List DNSRecord} {r : DNSRecord}
    (hn : (((u ++ r :: v)).map (fun x => x.id)).Nodup) :
    (∀ q ∈ u, q.id ≠ r.id) ∧ (∀ q ∈ v, q.id ≠ r.id) := by
  rw [List.map_append, List.map_cons, List.nodup_append] at hn
  obtain ⟨h1, h2, h3⟩ := hn
  rw [List.nodup_cons] at h2
  constructor
  · intro q hq he
    exact h3 (List.mem_map_of_mem _ hq) (by rw [he]; exact List.mem_cons_self _ _)
  · intro q hq he
    exact h2.1 (by rw [← he]; exact List.mem_map_of_mem _ hq)

/-- A map that fixes every element is the identity. -/
theorem map_id_of_fix {u : List DNSRecord} {f : DNSRecord → DNSRecord}
    (h : ∀ q ∈ u, f q = q) : u.map f = u := by
  induction u with
  | nil => rfl
  | cons a rest ih =>
    rw [List.map_cons, h a (List.mem_cons_self _ _),
      ih (fun q hq => h q (List.mem_cons_of_mem _ hq))]

/-- What one iteration of the desired-records loop guarantees about the
zone: ids stay unique; the processed name now resolves to the desired
target among managed records; other names are untouched; every record is
an old record or a managed record of the processed name whose id is fresh
or inherited from an old record of the same name; records of other names
survive; and no id disappears. -/
def StepOut (Z m : String) (tgt : Option String)
    (s s₁ : List DNSRecord) : Prop :=
  ((s₁.map (fun r => r.id)).Nodup) ∧
  (∃ r₁, mapGet (getExistingRecords Z s₁) m = some r₁ ∧ r₁.content = tgt) ∧
  (∀ n, n ≠ m →
    mapGet (getExistingRecords Z s₁) n = mapGet (getExistingRecords Z s) n) ∧
  (∀ q ∈ s₁, q ∈ s ∨ (isManagedRec Z q = true ∧ q.name = m ∧
    ((∀ p ∈ s, p.id ≠ q.id) ∨ ∃ e ∈ s, e.id = q.id ∧ e.name = q.name))) ∧
  (∀ p ∈ s, p.name ≠ m → p ∈ s₁) ∧
  (∀ p ∈ s, ∃ p' ∈ s₁, p'.id = p.id)

/-- What the whole desired-records loop guarantees about the zone. -/
def PhaseAOut (Z : String) (D : List DomainEntry)
    (s s' : List DNSRecord) : Prop :=
  ((s'.map (fun r => r.id)).Nodup) ∧
  (∀ d ∈ D, ∃ r', mapGet (getExistingRecords Z s') d.subdomain = some r' ∧
    r'.content = d.target) ∧
  (∀ n, (∀ d ∈ D, d.subdomain ≠ n) →
    mapGet (getExistingRecords Z s') n = mapGet (getExistingRecords Z s) n) ∧
  (∀ q ∈ s', q ∈ s ∨ (isManagedRec Z q = true ∧
    q.name ∈ D.map (fun d => d.subdomain) ∧
    ((∀ p ∈ s, p.id ≠ q.id) ∨ ∃ e ∈ s, e.id = q.id ∧ e.name = q.name)))

/-- Chaining one loop iteration with the rest of the loop. -/
theorem stepCompose (Z : String) (d₀ : DomainEntry) (Drest : List DomainEntry)
    (s s₁ s' : List DNSRecord)
    (hstep : StepOut Z d₀.subdomain d₀.target s s₁)
    (hrest : PhaseAOut Z Drest s₁ s')
    (hnin : d₀.subdomain ∉ Drest.map (fun d => d.subdomain)) :
    PhaseAOut Z (d₀ :: Drest) s s' := by
  obtain ⟨hids₁, ⟨r₁, hr₁, hr₁c⟩, hpres₁, hmem₁, hkeep₁, hidsur₁⟩ := hstep
  obtain ⟨hids', hc1', hpres', hmem'⟩ := hrest
  have hne : ∀ d ∈ Drest, d.subdomain ≠ d₀.subdomain := by
    intro d hd he
    exact hnin (he ▸ List.mem_map_of_mem _ hd)
  refine ⟨hids', ?_, ?_, ?_⟩
  · intro d hd
    rcases List.mem_cons.mp hd with he | hd2
    · subst he
      exact ⟨r₁, by rw [hpres' _ hne]; exact hr₁, hr₁c⟩
    · exact hc1' d hd2
  · intro n hn
    rw [hpres' n (fun d hd => hn d (List.mem_cons_of_mem _ hd))]
    exact hpres₁ n (fun he => hn d₀ (List.mem_cons_self _ _) he.symm)
  · intro q hq
    have idtrans : ((∀ p ∈ s₁, p.id ≠ q.id) ∨ ∃ e ∈ s₁, e.id = q.id ∧ e.name = q.name) →
        ((∀ p ∈ s, p.id ≠ q.id) ∨ ∃ e ∈ s, e.id = q.id ∧ e.name = q.name) := by
      intro hcase
      rcases hcase with hall | ⟨e, he, heid, hen⟩
      · left
        intro p hp
        obtain ⟨p', hp', hpid⟩ := hidsur₁ p hp
        rw [← hpid]
        exact hall p' hp'
      · rcases hmem₁ e he with he0 | ⟨_, hem, hecase⟩
        · exact Or.inr ⟨e, he0, heid, hen⟩
        · rcases hecase with hall | ⟨e₂, he₂, he₂id, he₂n⟩
          · left
            intro p hp hpe
            exact hall p hp (hpe.trans heid.symm)
          · exact Or.inr ⟨e₂, he₂, he₂id.trans heid, by rw [he₂n, hen]⟩
    rcases hmem' q hq with hq₁ | ⟨hman, hnm, hcase⟩
    · rcases hmem₁ q hq₁ with hq0 | ⟨hman, hnm, hcase⟩
      · exact Or.inl hq0
      · exact Or.inr ⟨hman, by rw [hnm, List.map_cons]; exact List.mem_cons_self _ _, hcase⟩
    · refine Or.inr ⟨hman, by rw [List.map_cons]; exact List.mem_cons_of_mem _ hnm, ?_⟩
      exact idtrans hcase

/-- A loop iteration that classifies its entry as unchanged leaves the
zone alone. -/
theorem stepNoop (Z m : String) (tgt : Option String) (s : List DNSRecord)
    (hids : (s.map (fun r => r.id)).Nodup)
    (hsome : ∃ r, mapGet (getExistingRecords Z s) m = some r ∧
      r.content = tgt) :
    StepOut Z m tgt s s := by
  obtain ⟨r, hr, hrc⟩ := hsome
  exact ⟨hids, ⟨r, hr, hrc⟩, fun n _ => rfl, fun q hq => Or.inl hq,
    fun p hp _ => hp, fun p hp => ⟨p, hp, rfl⟩⟩

/-- A name of the label.zone shape built by getDomainFiles names a managed
record once it carries the managed comment. -/
theorem isManagedRec_built (Z m ty ts : String) (tgt : Option String)
    (i : Nat) (hsh : ∃ l, m.data = l ++ ('.' :: Z.data)) :
    isManagedRec Z { id := i, name := m, content := tgt
                     comment := some (mkComment ty ts) } = true := by
  obtain ⟨l, hl⟩ := hsh
  unfold isManagedRec
  have h1 : strEndsWith m ("." ++ Z) = true := by
    apply strEndsWith_suffix _ _ l
    rw [strDataAppend, dotData]
    exact hl
  have h2 : m ≠ Z := ne_zone_of_suffix Z m ⟨l, hl⟩
  simp [h1, h2, commentHasTag_mkComment]

/-- A create call appends a managed record for the name; every other name
is untouched. -/
theorem stepCreate (Z ts m : String) (tgt : Option String) (ty : String)
    (s : List DNSRecord)
    (hids : (s.map (fun r => r.id)).Nodup)
    (hsh : ∃ l, m.data = l ++ ('.' :: Z.data)) :
    StepOut Z m tgt s
      (s ++ [{ id := freshId s, name := m, content := tgt
               comment := some (mkComment ty ts) }]) := by
  set newR : DNSRecord := { id := freshId s, name := m, content := tgt
                            comment := some (mkComment ty ts) } with hnewR
  have hman : isManagedRec Z newR = true := isManagedRec_built Z m ty ts tgt _ hsh
  have hger : getExistingRecords Z (s ++ [newR]) =
      getExistingRecords Z s ++ [newR] := by
    unfold getExistingRecords
    rw [List.filter_append]
    congr 1
    simp [hman]
  have hsingle : mapGet [newR] m = some newR := by
    show (if newR.name = m then some newR else none) = some newR
    rw [if_pos rfl]
  refine ⟨?_, ⟨newR, ?_, rfl⟩, ?_, ?_, ?_, ?_⟩
  · rw [List.map_append, List.nodup_append]
    refine ⟨hids, List.nodup_singleton _, ?_⟩
    intro a ha hb
    simp only [List.map_cons, List.map_nil, List.mem_singleton] at hb
    obtain ⟨p, hp, hpe⟩ := List.mem_map.mp ha
    have hlt := id_lt_freshId hp
    omega
  · rw [hger]
    exact mapGet_append_some hsingle _
  · intro n hn
    rw [hger]
    apply mapGet_append_none
    show (if newR.name = n then some newR else none) = none
    rw [if_neg]
    intro he
    exact hn he.symm
  · intro q hq
    rcases List.mem_append.mp hq with hq1 | hq2
    · exact Or.inl hq1
    · rw [List.mem_singleton] at hq2
      subst hq2
      refine Or.inr ⟨hman, rfl, Or.inl ?_⟩
      intro p hp
      have := id_lt_freshId hp
      show p.id ≠ freshId s
      omega
  · intro p hp _
    exact List.mem_append_left _ hp
  · intro p hp
    exact ⟨p, List.mem_append_left _ hp, rfl⟩

/-- An update call rewrites the managed record the lookup found, in
place; every other name is untouched. -/
theorem stepUpdate (Z ts m : String) (tgt : Option String) (ty : String)
    (s : List DNSRecord) (r : DNSRecord)
    (hids : (s.map (fun x => x.id)).Nodup)
    (hsh : ∃ l, m.data = l ++ ('.' :: Z.data))
    (hrs : r ∈ s)
    (hrman : isManagedRec Z r = true)
    (hrname : r.name = m)
    (hsnap : mapGet (getExistingRecords Z s) m = some r) :
    StepOut Z m tgt s
      (s.map (fun q => if q.id = r.id then
        { id := r.id, name := m, content := tgt
          comment := some (mkComment ty ts) } else q)) := by
  set newR : DNSRecord := { id := r.id, name := m, content := tgt
                            comment := some (mkComment ty ts) } with hnewR
  obtain ⟨u, v, huv⟩ := List.append_of_mem hrs
  subst huv
  obtain ⟨hu, hv⟩ := nodup_ids_split hids
  have hman : isManagedRec Z newR = true := isManagedRec_built Z m ty ts tgt _ hsh
  have hmap : (u ++ r :: v).map (fun q => if q.id = r.id then newR else q) =
      u ++ newR :: v := by
    rw [List.map_append, List.map_cons]
    rw [map_id_of_fix (fun q hq => if_neg (hu q hq))]
    rw [map_id_of_fix (fun q hq => if_neg (hv q hq))]
    rw [if_pos rfl]
  rw [hmap]
  have hgs : getExistingRecords Z (u ++ r :: v) =
      getExistingRecords Z u ++ r :: getExistingRecords Z v := by
    unfold getExistingRecords
    rw [List.filter_append, List.filter_cons]
    simp [hrman]
  have hgs₁ : getExistingRecords Z (u ++ newR :: v) =
      getExistingRecords Z u ++ newR :: getExistingRecords Z v := by
    unfold getExistingRecords
    rw [List.filter_append, List.filter_cons]
    simp [hman]
  have hvnone : mapGet (getExistingRecords Z v) m = none := by
    cases hx : mapGet (getExistingRecords Z v) m with
    | none => rfl
    | some q =>
      have hq := mapGet_eq_some hx
      have hqv : q ∈ v := List.mem_of_mem_filter hq.1
      have h1 : mapGet (r :: getExistingRecords Z v) m = some q := by
        show (match mapGet (getExistingRecords Z v) m with
              | some r' => some r'
              | none => if r.name = m then some r else none) = some q
        rw [hx]
      have h2 : mapGet (getExistingRecords Z (u ++ r :: v)) m = some q := by
        rw [hgs]
        exact mapGet_append_some h1 _
      rw [hsnap] at h2
      cases h2
      exact absurd rfl (hv _ hqv)
  refine ⟨?_, ⟨newR, ?_, rfl⟩, ?_, ?_, ?_, ?_⟩
  · have heq : ((u ++ newR :: v).map (fun x => x.id)) =
        ((u ++ r :: v).map (fun x => x.id)) := by
      simp [List.map_append, List.map_cons]
    rw [heq]
    exact hids
  · rw [hgs₁]
    apply mapGet_append_some
    show (match mapGet (getExistingRecords Z v) m with
          | some r' => some r'
          | none => if newR.name = m then some newR else none) = some newR
    rw [hvnone]
    show (if newR.name = m then some newR else none) = some newR
    rw [if_pos rfl]
  · intro n hn
    rw [hgs₁, hgs]
    cases hx : mapGet (getExistingRecords Z v) n with
    | some q =>
      have l1 : mapGet (newR :: getExistingRecords Z v) n = some q := by
        show (match mapGet (getExistingRecords Z v) n with
              | some r' => some r'
              | none => if newR.name = n then some newR else none) = some q
        rw [hx]
      have l2 : mapGet (r :: getExistingRecords Z v) n = some q := by
        show (match mapGet (getExistingRecords Z v) n with
              | some r' => some r'
              | none => if r.name = n then some r else none) = some q
        rw [hx]
      rw [mapGet_append_some l1, mapGet_append_some l2]
    | none =>
      have l1 : mapGet (newR :: getExistingRecords Z v) n = none := by
        show (match mapGet (getExistingRecords Z v) n with
              | some r' => some r'
              | none => if newR.name = n then some newR else none) = none
        rw [hx]
        exact if_neg (fun he => hn he.symm)
      have l2 : mapGet (r :: getExistingRecords Z v) n = none := by
        show (match mapGet (getExistingRecords Z v) n with
              | some r' => some r'
              | none => if r.name = n then some r else none) = none
        rw [hx]
        refine if_neg (fun he => hn ?_)
        rw [← he, hrname]
      rw [mapGet_append_none l1, mapGet_append_none l2]
  · intro q hq
    rcases List.mem_append.mp hq with hq1 | hq2
    · exact Or.inl (List.mem_append_left _ hq1)
    · rcases List.mem_cons.mp hq2 with he | hq3
      · subst he
        refine Or.inr ⟨hman, rfl, Or.inr ⟨r, ?_, rfl, hrname⟩⟩
        exact List.mem_append_right _ (List.mem_cons_self _ _)
      · exact Or.inl (List.mem_append_right _ (List.mem_cons_of_mem _ hq3))
  · intro p hp hpm
    rcases List.mem_append.mp hp with hp1 | hp2
    · exact List.mem_append_left _ hp1
    · rcases List.mem_cons.mp hp2 with he | hp3
      · subst he
        exact absurd hrname hpm
      · exact List.mem_append_right _ (List.mem_cons_of_mem _ hp3)
  · intro p hp
    rcases List.mem_append.mp hp with hp1 | hp2
    · exact ⟨p, List.mem_append_left _ hp1, rfl⟩
    · rcases List.mem_cons.mp hp2 with he | hp3
      · subst he
        exact ⟨newR, List.mem_append_right _ (List.mem_cons_self _ _), rfl⟩
      · exact ⟨p, List.mem_append_right _ (List.mem_cons_of_mem _ hp3), rfl⟩

/-- The desired-records loop of deployDNS, run over a snapshot E of the
managed records: afterwards every processed name resolves (among managed
records) to its desired target, untouched names are unchanged, ids stay
unique, and every zone record is an original or a managed record of a
processed name. -/
theorem desiredPhase (Z ts : String) (E : List DNSRecord)
    (hEman : ∀ r ∈ E, isManagedRec Z r = true) :
    ∀ (D : List DomainEntry), ∀ (s : List DNSRecord),
    (∀ d ∈ D, ∃ l, d.subdomain.data = l ++ ('.' :: Z.data)) →
    ((D.map (fun d => d.subdomain)).Nodup) →
    (∀ d ∈ D, mapGet (getExistingRecords Z s) d.subdomain =
      mapGet E d.subdomain) →
    (∀ d ∈ D, ∀ r, mapGet E d.subdomain = some r → r ∈ s) →
    ((s.map (fun r => r.id)).Nodup) →
    PhaseAOut Z D s (applyOps ts s (desiredOps E D)) := by
  intro D
  induction D with
  | nil =>
    intro s _ _ _ _ hids
    refine ⟨hids, ?_, fun n _ => rfl, fun q hq => Or.inl hq⟩
    intro d hd
    exact absurd hd (List.not_mem_nil d)
  | cons d₀ Drest ih =>
    intro s hsh hnd hsnap hmem hids
    have hnin : d₀.subdomain ∉ Drest.map (fun d => d.subdomain) := by
      rw [List.map_cons, List.nodup_cons] at hnd
      exact hnd.1
    have hndrest : (Drest.map (fun d => d.subdomain)).Nodup := by
      rw [List.map_cons, List.nodup_cons] at hnd
      exact hnd.2
    have hddne : ∀ d ∈ Drest, d.subdomain ≠ d₀.subdomain := fun d hd he =>
      hnin (he ▸ List.mem_map_of_mem _ hd)
    have hshrest : ∀ d ∈ Drest, ∃ l, d.subdomain.data = l ++ ('.' :: Z.data) :=
      fun d hd => hsh d (List.mem_cons_of_mem _ hd)
    cases hop : mapGet E d₀.subdomain with
    | some r =>
      have hrE := mapGet_eq_some hop
      have hrs : r ∈ s := hmem d₀ (List.mem_cons_self _ _) r hop
      by_cases hc : r.content = d₀.target
      · -- contents match: no call for this entry
        have h1 : opFor E d₀ = none := by
          unfold opFor
          rw [hop]
          simp [hc]
        have hops : desiredOps E (d₀ :: Drest) = desiredOps E Drest := by
          unfold desiredOps
          rw [List.filterMap_cons, h1]
        rw [hops]
        have hstep : StepOut Z d₀.subdomain d₀.target s s :=
          stepNoop Z d₀.subdomain d₀.target s hids
            ⟨r, by rw [hsnap d₀ (List.mem_cons_self _ _)]; exact hop, hc⟩
        exact stepCompose Z d₀ Drest s s _ hstep
          (ih s hshrest hndrest
            (fun d hd => hsnap d (List.mem_cons_of_mem _ hd))
            (fun d hd r₂ h₂ => hmem d (List.mem_cons_of_mem _ hd) r₂ h₂)
            hids)
          hnin
      · -- contents differ: update call
        have h1 : opFor E d₀ =
            some (DNSOp.update r.id d₀.subdomain d₀.target d₀.type) := by
          unfold opFor
          rw [hop]
          simp [hc]
        have hops : desiredOps E (d₀ :: Drest) =
            DNSOp.update r.id d₀.subdomain d₀.target d₀.type ::
              desiredOps E Drest := by
          unfold desiredOps
          rw [List.filterMap_cons, h1]
        rw [hops]
        show PhaseAOut Z (d₀ :: Drest) s
          (applyOps ts
            (s.map (fun q => if q.id = r.id then
              { id := r.id, name := d₀.subdomain, content := d₀.target
                comment := some (mkComment d₀.type ts) } else q))
            (desiredOps E Drest))
        have hstep : StepOut Z d₀.subdomain d₀.target s
            (s.map (fun q => if q.id = r.id then
              { id := r.id, name := d₀.subdomain, content := d₀.target
                comment := some (mkComment d₀.type ts) } else q)) :=
          stepUpdate Z ts d₀.subdomain d₀.target d₀.type s r hids
            (hsh d₀ (List.mem_cons_self _ _)) hrs (hEman r hrE.1) hrE.2
            (by rw [hsnap d₀ (List.mem_cons_self _ _)]; exact hop)
        have hids₁ := hstep.1
        have hpres₁ := hstep.2.2.1
        have hkeep₁ := hstep.2.2.2.2.1
        refine stepCompose Z d₀ Drest s _ _ hstep
          (ih _ hshrest hndrest ?_ ?_ hids₁) hnin
        · intro d hd
          rw [hpres₁ d.subdomain (hddne d hd)]
          exact hsnap d (List.mem_cons_of_mem _ hd)
        · intro d hd r₂ h₂
          have hr₂ := mapGet_eq_some h₂
          refine hkeep₁ r₂ (hmem d (List.mem_cons_of_mem _ hd) r₂ h₂) ?_
          rw [hr₂.2]
          exact hddne d hd
    | none =>
      -- no managed record: create call
      have h1 : opFor E d₀ =
          some (DNSOp.create d₀.subdomain d₀.target d₀.type) := by
        unfold opFor
        rw [hop]
      have hops : desiredOps E (d₀ :: Drest) =
          DNSOp.create d₀.subdomain d₀.target d₀.type ::
            desiredOps E Drest := by
        unfold desiredOps
        rw [List.filterMap_cons, h1]
      rw [hops]
      show PhaseAOut Z (d₀ :: Drest) s
        (applyOps ts
          (s ++ [{ id := freshId s, name := d₀.subdomain, content := d₀.target
                   comment := some (mkComment d₀.type ts) }])
          (desiredOps E Drest))
      have hstep : StepOut Z d₀.subdomain d₀.target s
          (s ++ [{ id := freshId s, name := d₀.subdomain, content := d₀.target
                   comment := some (mkComment d₀.type ts) }]) :=
        stepCreate Z ts d₀.subdomain d₀.target d₀.type s hids
          (hsh d₀ (List.mem_cons_self _ _))
      have hids₁ := hstep.1
      have hpres₁ := hstep.2.2.1
      have hkeep₁ := hstep.2.2.2.2.1
      refine stepCompose Z d₀ Drest s _ _ hstep
        (ih _ hshrest hndrest ?_ ?_ hids₁) hnin
      · intro d hd
        rw [hpres₁ d.subdomain (hddne d hd)]
        exact hsnap d (List.mem_cons_of_mem _ hd)
      · intro d hd r₂ h₂
        exact List.mem_append_left _ (hmem d (List.mem_cons_of_mem _ hd) r₂ h₂)

/-- A list has no any-hit for a predicate exactly when every member
fails it. -/
theorem any_eq_false_iff (D : List DomainEntry) (n : String) :
    (D.any (fun d => d.subdomain = n)) = false ↔
      ∀ d ∈ D, d.subdomain ≠ n := by
  rw [← Bool.not_eq_true, List.any_eq_true]
  constructor
  · intro h d hd he
    exact h ⟨d, hd, by simp [he]⟩
  · rintro h ⟨d, hd, he⟩
    exact h d hd (by simpa using he)


/-- The full effect of one deployDNS run on the zone: after the desired
loop and the deletion loop, a second diff of the same domain files
against the zone issues no operation at all. -/
theorem deployRunConverges (Z ts : String) (state0 : List DNSRecord)
    (D : List DomainEntry)
    (hsh : ∀ d ∈ D, ∃ l, d.subdomain.data = l ++ ('.' :: Z.data))
    (hdn : (D.map (fun d => d.subdomain)).Nodup)
    (hri : (state0.map (fun r => r.id)).Nodup) :
    deployOps
      (getExistingRecords Z
        (applyOps ts state0 (deployOps (getExistingRecords Z state0) D)))
      D = [] := by
  set E := getExistingRecords Z state0 with hE
  have hEman : ∀ r ∈ E, isManagedRec Z r = true := by
    intro r hr
    exact (List.mem_filter.mp hr).2
  have hEsub : ∀ r ∈ E, r ∈ state0 := fun r hr => List.mem_of_mem_filter hr
  have hphA := desiredPhase Z ts E hEman D state0 hsh hdn
    (fun d _ => rfl)
    (fun d _ r h => hEsub r (mapGet_eq_some h).1)
    hri
  set A := applyOps ts state0 (desiredOps E D) with hA
  obtain ⟨hAids, hAc1, hApres, hAmem⟩ := hphA
  set keep : DNSRecord → Bool :=
    fun q => (staleRecords E D).all (fun r => q.id ≠ r.id) with hkeep
  have hsplit : applyOps ts state0 (deployOps E D) = A.filter keep := by
    unfold deployOps
    rw [applyOps_append]
    rw [← hA]
    unfold deleteOps
    exact applyOps_deletes ts (staleRecords E D) A
  rw [hsplit]
  have hstale : ∀ rs ∈ staleRecords E D, rs ∈ state0 ∧
      ∀ d ∈ D, d.subdomain ≠ rs.name := by
    intro rs hrs
    have h1 := List.mem_filter.mp hrs
    refine ⟨hEsub rs h1.1, ?_⟩
    have h2 : (D.any (fun d => d.subdomain = rs.name)) = false := by
      have := h1.2
      cases hx : (D.any (fun d => d.subdomain = rs.name)) with
      | false => rfl
      | true => rw [hx] at this; cases this
    exact (any_eq_false_iff D rs.name).mp h2
  have hdropname : ∀ q ∈ A, keep q = false →
      ∀ d ∈ D, q.name ≠ d.subdomain := by
    intro q hq hfail d hd he
    have hex : ∃ rs ∈ staleRecords E D, q.id = rs.id := by
      by_contra hno
      push_neg at hno
      have hall : keep q = true := by
        rw [hkeep]
        rw [List.all_eq_true]
        intro r hr
        exact decide_eq_true (hno r hr)
      rw [hall] at hfail
      cases hfail
    obtain ⟨rs, hrs, hqid⟩ := hex
    obtain ⟨hrs0, hrsname⟩ := hstale rs hrs
    rcases hAmem q hq with hq0 | ⟨_, _, hcase⟩
    · have hqr : q = rs := nodup_ids_inj hri hq0 hrs0 hqid
      apply hrsname d hd
      rw [← he, hqr]
    · rcases hcase with hall | ⟨e, he0, heid, hen⟩
      · exact hall rs hrs0 hqid.symm
      · have her : e = rs := nodup_ids_inj hri he0 hrs0 (heid.trans hqid)
        apply hrsname d hd
        rw [← her, hen, he]
  have hcomm : getExistingRecords Z (A.filter keep) =
      (getExistingRecords Z A).filter keep := by
    unfold getExistingRecords
    exact filter_comm_rec keep _ A
  have hger_final : ∀ d ∈ D,
      mapGet (getExistingRecords Z (A.filter keep)) d.subdomain =
        mapGet (getExistingRecords Z A) d.subdomain := by
    intro d hd
    rw [hcomm]
    apply mapGet_filter_of_names
    intro q hq hfalse
    exact hdropname q (List.mem_of_mem_filter hq) hfalse d hd
  unfold deployOps
  have hdesired : desiredOps (getExistingRecords Z (A.filter keep)) D = [] := by
    rw [desiredOps, List.filterMap_eq_nil_iff]
    intro d hd
    obtain ⟨r', hr', hrc⟩ := hAc1 d hd
    unfold opFor
    rw [hger_final d hd, hr']
    simp [hrc]
  have hnames_final : ∀ r ∈ getExistingRecords Z (A.filter keep),
      ∃ d ∈ D, d.subdomain = r.name := by
    intro r hr
    rw [hcomm] at hr
    have h1 := List.mem_filter.mp hr
    have hrA : r ∈ getExistingRecords Z A := h1.1
    have hkeepr : keep r = true := h1.2
    have hrman : isManagedRec Z r = true := (List.mem_filter.mp hrA).2
    have hrAmem : r ∈ A := List.mem_of_mem_filter hrA
    rcases hAmem r hrAmem with hr0 | ⟨_, hnm, _⟩
    · -- original record, still managed: it is in E
      have hrE : r ∈ E := List.mem_filter.mpr ⟨hr0, hrman⟩
      by_cases hin : ∃ d ∈ D, d.subdomain = r.name
      · exact hin
      · exfalso
        have hany : (D.any (fun d => d.subdomain = r.name)) = false := by
          apply (any_eq_false_iff D r.name).mpr
          intro d hd heq
          exact hin ⟨d, hd, heq⟩
        have hrstale : r ∈ staleRecords E D := by
          apply List.mem_filter.mpr
          refine ⟨hrE, ?_⟩
          rw [hany]
          rfl
        have := (List.all_eq_true.mp hkeepr) r hrstale
        exact (of_decide_eq_true this) rfl
    · obtain ⟨d, hd, hde⟩ := List.mem_map.mp hnm
      exact ⟨d, hd, hde⟩
  have hdelete : deleteOps (getExistingRecords Z (A.filter keep)) D = [] := by
    have hstale2 : staleRecords (getExistingRecords Z (A.filter keep)) D = [] := by
      unfold staleRecords
      rw [List.filter_eq_nil_iff]
      intro r hr
      obtain ⟨d, hd, hde⟩ := hnames_final r hr
      have hany : (D.any (fun d => d.subdomain = r.name)) = true := by
        rw [List.any_eq_true]
        exact ⟨d, hd, decide_eq_true hde⟩
      simp [hany]
    unfold deleteOps
    rw [hstale2]
    rfl
  rw [hdesired, hdelete]
  rfl

/-! ## Operation names and failure semantics -/

/-- An operation the desired loop issues targets its entry's subdomain. -/
theorem opFor_name {E : List DNSRecord} {d : DomainEntry} {op : DNSOp}
    (h : opFor E d = some op) : opName op = d.subdomain := by
  unfold opFor at h
  split at h
  · split at h
    · cases h
    · cases h
      rfl
  · cases h
    rfl

/-- An operation the desired loop issues is a create or an update. -/
theorem opFor_kind {E : List DNSRecord} {d : DomainEntry} {op : DNSOp}
    (h : opFor E d = some op) :
    (mapGet E d.subdomain = none ∧
      op = DNSOp.create d.subdomain d.target d.type) ∨
    (∃ r, mapGet E d.subdomain = some r ∧
      op = DNSOp.update r.id d.subdomain d.target d.type) := by
  unfold opFor at h
  split at h
  · split at h
    · cases h
    · cases h
      next r heq _ => exact Or.inr ⟨r, heq, rfl⟩
  · cases h
    next heq => exact Or.inl ⟨heq, rfl⟩

/-- The names of the desired-loop operations are drawn from the desired
subdomains, one at most per entry. -/
theorem desiredOps_names_sublist (E : List DNSRecord) (D : List DomainEntry) :
    List.Sublist ((desiredOps E D).map opName)
      (D.map (fun d => d.subdomain)) := by
  induction D with
  | nil => simp [desiredOps]
  | cons d rest ih =>
    show List.Sublist ((List.filterMap (opFor E) (d :: rest)).map opName) _
    rw [List.filterMap_cons]
    cases h : opFor E d with
    | none =>
      rw [List.map_cons]
      exact List.Sublist.cons _ ih
    | some op =>
      rw [List.map_cons, List.map_cons, opFor_name h]
      exact List.Sublist.cons₂ _ ih

/-- The deletion-loop operations are named after the stale records. -/
theorem deleteOps_names (E : List DNSRecord) (D : List DomainEntry) :
    (deleteOps E D).map opName =
      (staleRecords E D).map (fun r => r.name) := by
  unfold deleteOps
  rw [List.map_map]
  rfl

/-- When the desired subdomains and the fetched record names are each
unique, no two operations of a run target the same name. -/
theorem deployOps_names_nodup (E : List DNSRecord) (D : List DomainEntry)
    (hdn : (D.map (fun d => d.subdomain)).Nodup)
    (hen : (E.map (fun r => r.name)).Nodup) :
    ((deployOps E D).map opName).Nodup := by
  unfold deployOps
  rw [List.map_append]
  apply List.Nodup.append
  · exact List.Nodup.sublist (desiredOps_names_sublist E D) hdn
  · rw [deleteOps_names]
    apply List.Nodup.sublist _ hen
    exact List.Sublist.map _ (List.filter_sublist E)
  · intro a ha hb
    have haD : a ∈ D.map (fun d => d.subdomain) :=
      List.Sublist.subset (desiredOps_names_sublist E D) ha
    obtain ⟨d, hd, hde⟩ := List.mem_map.mp haD
    rw [deleteOps_names] at hb
    obtain ⟨rs, hrs, hre⟩ := List.mem_map.mp hb
    have hpred := (List.mem_filter.mp hrs).2
    have hany : (D.any (fun x => x.subdomain = rs.name)) = false := by
      cases hx : (D.any (fun x => x.subdomain = rs.name)) with
      | false => rfl
      | true => rw [hx] at hpred; cases hpred
    exact (any_eq_false_iff D rs.name).mp hany d hd (by rw [hde, ← hre])

/-- Calls before the first throwing one all run, and nothing after. -/
theorem runOps_all_ok (fails : DNSOp → Bool) :
    ∀ l : List DNSOp, (∀ op ∈ l, fails op = false) →
      runOps fails l = (l, none) := by
  intro l
  induction l with
  | nil => intro _; rfl
  | cons op rest ih =>
    intro h
    simp [runOps, h op (List.mem_cons_self _ _),
      ih (fun o ho => h o (List.mem_cons_of_mem _ ho))]

/-- The first throwing call ends the run: it is attempted, everything
after it is not. -/
theorem runOps_first_fail (fails : DNSOp → Bool) :
    ∀ (pre : List DNSOp) (op : DNSOp) (post : List DNSOp),
      (∀ o ∈ pre, fails o = false) → fails op = true →
      runOps fails (pre ++ op :: post) = (pre ++ [op], some op) := by
  intro pre
  induction pre with
  | nil =>
    intro op post _ hf
    simp [runOps, hf]
  | cons o rest ih =>
    intro op post hok hf
    simp [runOps, hok o (List.mem_cons_self _ _),
      ih op post (fun o' ho' => hok o' (List.mem_cons_of_mem _ ho')) hf]

/-! ## Association-object lemmas -/

/-- Setting a key stores its value. -/
theorem accGet_accSet_self {α : Type} (acc : List (String × α)) (k : String)
    (v : α) : accGet k (accSet acc k v) = some v := by
  induction acc with
  | nil =>
    show accGet k [(k, v)] = some v
    unfold accGet
    rw [if_pos rfl]
  | cons kv rest ih =>
    obtain ⟨k₁, v₁⟩ := kv
    show accGet k (if k₁ = k then (k, v) :: rest
      else (k₁, v₁) :: accSet rest k v) = some v
    by_cases he : k₁ = k
    · rw [if_pos he]
      show (if k = k then some v else accGet k rest) = some v
      rw [if_pos rfl]
    · rw [if_neg he]
      show (if k₁ = k then some v₁ else accGet k (accSet rest k v)) = some v
      rw [if_neg he]
      exact ih

/-- Setting a key leaves other keys alone. -/
theorem accGet_accSet_ne {α : Type} (acc : List (String × α)) (k k' : String)
    (v : α) (h : k' ≠ k) : accGet k' (accSet acc k v) = accGet k' acc := by
  induction acc with
  | nil =>
    show accGet k' [(k, v)] = accGet k' []
    unfold accGet
    rw [if_neg (fun he => h he.symm)]
    rfl
  | cons kv rest ih =>
    obtain ⟨k₁, v₁⟩ := kv
    show accGet k' (if k₁ = k then (k, v) :: rest
      else (k₁, v₁) :: accSet rest k v) = accGet k' ((k₁, v₁) :: rest)
    by_cases he : k₁ = k
    · rw [if_pos he]
      show (if k = k' then some v else accGet k' rest) =
        (if k₁ = k' then some v₁ else accGet k' rest)
      rw [if_neg (fun hx => h hx.symm), if_neg (fun hx => h (hx.symm.trans he))]
    · rw [if_neg he]
      show (if k₁ = k' then some v₁ else accGet k' (accSet rest k v)) =
        (if k₁ = k' then some v₁ else accGet k' rest)
      by_cases hx : k₁ = k'
      · rw [if_pos hx, if_pos hx]
      · rw [if_neg hx, if_neg hx]
        exact ih

/-- A found entry is a member. -/
theorem accGet_some_mem {α : Type} (acc : List (String × α)) (k : String)
    (v : α) (h : accGet k acc = some v) : (k, v) ∈ acc := by
  induction acc with
  | nil => simp [accGet] at h
  | cons kv rest ih =>
    obtain ⟨k₁, v₁⟩ := kv
    have h2 : (if k₁ = k then some v₁ else accGet k rest) = some v := h
    by_cases he : k₁ = k
    · rw [if_pos he] at h2
      cases h2
      subst he
      exact List.mem_cons_self _ _
    · rw [if_neg he] at h2
      exact List.mem_cons_of_mem _ (ih h2)

/-! ## checkForDuplicates lemmas -/

/-- The owner usernames read out of a batch of files. -/
def filesUsernames (files : List (String × Option String)) : List String :=
  files.filterMap (fun f => f.2)

/-- A file without a username is skipped by the duplicates loop. -/
theorem dupsGo_cons_none {f : String × Option String}
    {rest : List (String × Option String)} {acc : List (String × String)}
    (hf : f.2 = none) : dupsGo (f :: rest) acc = dupsGo rest acc := by
  simp [dupsGo, hf]

/-- A file with an empty username is skipped by the duplicates loop. -/
theorem dupsGo_cons_empty {f : String × Option String}
    {rest : List (String × Option String)} {acc : List (String × String)}
    (hf : f.2 = some "") : dupsGo (f :: rest) acc = dupsGo rest acc := by
  simp [dupsGo, hf]

/-- A first sighting of a username stores the file path. -/
theorem dupsGo_cons_fresh {f : String × Option String}
    {rest : List (String × Option String)} {acc : List (String × String)}
    {u : String} (hf : f.2 = some u) (hne : u ≠ "")
    (hobj : jsObjGet acc u = none) :
    dupsGo (f :: rest) acc = dupsGo rest (accSet acc u f.1) := by
  simp [dupsGo, hf, hne, hobj]

/-- A truthy lookup pushes one duplicate diagnostic. -/
theorem dupsGo_cons_dup {f : String × Option String}
    {rest : List (String × Option String)} {acc : List (String × String)}
    {u p : String} (hf : f.2 = some u) (hne : u ≠ "")
    (hobj : jsObjGet acc u = some (JsPathVal.path p)) (hp : p ≠ "") :
    dupsGo (f :: rest) acc =
      { username := u, files := [JsPathVal.path p, JsPathVal.path f.1] }
        :: dupsGo rest acc := by
  simp [dupsGo, hf, hne, hobj, hp]

/-- With fresh unique non-prototype usernames, the duplicates loop
reports nothing. -/
theorem dupsGo_nil : ∀ (files : List (String × Option String))
    (acc : List (String × String)),
    (∀ u ∈ filesUsernames files, ¬ u ∈ objProtoKeys ∧ u ≠ "") →
    (∀ u ∈ filesUsernames files, accGet u acc = none) →
    (∀ u ∈ filesUsernames files, (filesUsernames files).count u = 1) →
    dupsGo files acc = [] := by
  intro files
  induction files with
  | nil => intro acc _ _ _; rfl
  | cons f rest ih =>
    intro acc hg hfresh huniq
    cases hf : f.2 with
    | none =>
      have hnames : filesUsernames (f :: rest) = filesUsernames rest := by
        unfold filesUsernames
        rw [List.filterMap_cons, hf]
      rw [hnames] at hg hfresh huniq
      rw [dupsGo_cons_none hf]
      exact ih acc hg hfresh huniq
    | some u =>
      have hnames : filesUsernames (f :: rest) = u :: filesUsernames rest := by
        unfold filesUsernames
        rw [List.filterMap_cons, hf]
      rw [hnames] at hg hfresh huniq
      have hu := hg u (List.mem_cons_self _ _)
      have hunotin : u ∉ filesUsernames rest := by
        have h1 := huniq u (List.mem_cons_self _ _)
        rw [List.count_cons_self] at h1
        have : (filesUsernames rest).count u = 0 := by omega
        exact List.count_eq_zero.mp this
      have hobj : jsObjGet acc u = none := by
        unfold jsObjGet
        rw [hfresh u (List.mem_cons_self _ _)]
        rw [if_neg]
        simpa using hu.1
      rw [dupsGo_cons_fresh hf hu.2 hobj]
      apply ih
      · intro v hv
        exact hg v (List.mem_cons_of_mem _ hv)
      · intro v hv
        rw [accGet_accSet_ne acc u v f.1
          (fun he => hunotin (by rw [← he]; exact hv))]
        exact hfresh v (List.mem_cons_of_mem _ hv)
      · intro v hv
        have h1 := huniq v (List.mem_cons_of_mem _ hv)
        rw [List.count_cons_of_ne
          (fun he => hunotin (by rw [← he]; exact hv))] at h1
        exact h1

/-- Once a username is stored with a truthy path, its single further
occurrence produces exactly one duplicate naming the stored path and the
new file's path. -/
theorem dupsGo_one : ∀ (files : List (String × Option String))
    (acc : List (String × String)) (u₀ p₁ : String),
    (∀ u ∈ filesUsernames files, ¬ u ∈ objProtoKeys ∧ u ≠ "") →
    accGet u₀ acc = some p₁ → p₁ ≠ "" →
    (∀ v ∈ filesUsernames files, v ≠ u₀ → accGet v acc = none) →
    (filesUsernames files).count u₀ = 1 →
    (∀ v ∈ filesUsernames files, v ≠ u₀ →
      (filesUsernames files).count v = 1) →
    ∃ l1 f2 l2, files = l1 ++ f2 :: l2 ∧ f2.2 = some u₀ ∧
      dupsGo files acc =
        [{ username := u₀
           files := [JsPathVal.path p₁, JsPathVal.path f2.1] }] := by
  intro files
  induction files with
  | nil =>
    intro acc u₀ p₁ _ _ _ _ hcount _
    simp [filesUsernames] at hcount
  | cons f rest ih =>
    intro acc u₀ p₁ hg hacc hp₁ hfresh hcount huniq
    cases hf : f.2 with
    | none =>
      have hnames : filesUsernames (f :: rest) = filesUsernames rest := by
        unfold filesUsernames
        rw [List.filterMap_cons, hf]
      rw [hnames] at hg hfresh hcount huniq
      obtain ⟨l1, f2, l2, hsplit, hf2, hres⟩ :=
        ih acc u₀ p₁ hg hacc hp₁ hfresh hcount huniq
      exact ⟨f :: l1, f2, l2, by rw [hsplit]; rfl, hf2,
        by rw [dupsGo_cons_none hf]; exact hres⟩
    | some v =>
      have hnames : filesUsernames (f :: rest) = v :: filesUsernames rest := by
        unfold filesUsernames
        rw [List.filterMap_cons, hf]
      rw [hnames] at hg hfresh hcount huniq
      have hv := hg v (List.mem_cons_self _ _)
      by_cases hvu : v = u₀
      · have hnotin : u₀ ∉ filesUsernames rest := by
          rw [hvu] at hcount
          rw [List.count_cons_self] at hcount
          exact List.count_eq_zero.mp (by omega)
        have hobj : jsObjGet acc v = some (JsPathVal.path p₁) := by
          unfold jsObjGet
          rw [hvu, hacc]
        have hrest_nil : dupsGo rest acc = [] := by
          apply dupsGo_nil
          · intro w hw
            exact hg w (List.mem_cons_of_mem _ hw)
          · intro w hw
            exact hfresh w (List.mem_cons_of_mem _ hw)
              (fun he => hnotin (he ▸ hw))
          · intro w hw
            have hwne : w ≠ u₀ := fun he => hnotin (he ▸ hw)
            have h1 := huniq w (List.mem_cons_of_mem _ hw) hwne
            rw [List.count_cons_of_ne (fun he => hnotin (by
              rw [← hvu, ← he]; exact hw))] at h1
            exact h1
        refine ⟨[], f, rest, rfl, by rw [hf, hvu], ?_⟩
        rw [dupsGo_cons_dup hf hv.2 hobj hp₁, hrest_nil, hvu]
      · have hvnotin : v ∉ filesUsernames rest := by
          have h1 := huniq v (List.mem_cons_self _ _) hvu
          rw [List.count_cons_self] at h1
          exact List.count_eq_zero.mp (by omega)
        have hobj : jsObjGet acc v = none := by
          unfold jsObjGet
          rw [hfresh v (List.mem_cons_self _ _) hvu, if_neg]
          simpa using hv.1
        obtain ⟨l1, f2, l2, hsplit, hf2, hres⟩ :=
          ih (accSet acc v f.1) u₀ p₁
            (fun w hw => hg w (List.mem_cons_of_mem _ hw))
            (by rw [accGet_accSet_ne acc v u₀ f.1 (fun he => hvu he.symm)]
                exact hacc)
            hp₁
            (fun w hw hwne => by
              rw [accGet_accSet_ne acc v w f.1
                (fun he => hvnotin (by rw [← he]; exact hw))]
              exact hfresh w (List.mem_cons_of_mem _ hw) hwne)
            (by rw [List.count_cons_of_ne (fun he => hvu he.symm)] at hcount
                exact hcount)
            (fun w hw hwne => by
              have h1 := huniq w (List.mem_cons_of_mem _ hw) hwne
              rw [List.count_cons_of_ne
                (fun he => hvnotin (by rw [← he]; exact hw))] at h1
              exact h1)
        exact ⟨f :: l1, f2, l2, by rw [hsplit]; rfl, hf2,
          by rw [dupsGo_cons_fresh hf hv.2 hobj]; exact hres⟩

/-- A batch in which one username occurs exactly twice, with fresh unique
non-prototype usernames otherwise, yields exactly one duplicate naming
both files. -/
theorem dupsGo_two : ∀ (files : List (String × Option String))
    (acc : List (String × String)) (u₀ : String),
    (∀ u ∈ filesUsernames files, ¬ u ∈ objProtoKeys ∧ u ≠ "") →
    (∀ f ∈ files, f.1 ≠ "") →
    (∀ v ∈ filesUsernames files, accGet v acc = none) →
    (filesUsernames files).count u₀ = 2 →
    (∀ v ∈ filesUsernames files, v ≠ u₀ →
      (filesUsernames files).count v = 1) →
    ∃ l1 f1 l2 f2 l3, files = l1 ++ f1 :: (l2 ++ f2 :: l3) ∧
      f1.2 = some u₀ ∧ f2.2 = some u₀ ∧
      dupsGo files acc =
        [{ username := u₀
           files := [JsPathVal.path f1.1, JsPathVal.path f2.1] }] := by
  intro files
  induction files with
  | nil =>
    intro acc u₀ _ _ _ hcount _
    simp [filesUsernames] at hcount
  | cons f rest ih =>
    intro acc u₀ hg hpaths hfresh hcount huniq
    cases hf : f.2 with
    | none =>
      have hnames : filesUsernames (f :: rest) = filesUsernames rest := by
        unfold filesUsernames
        rw [List.filterMap_cons, hf]
      rw [hnames] at hg hfresh hcount huniq
      obtain ⟨l1, f1, l2, f2, l3, hsplit, hf1, hf2, hres⟩ :=
        ih acc u₀ hg (fun x hx => hpaths x (List.mem_cons_of_mem _ hx))
          hfresh hcount huniq
      exact ⟨f :: l1, f1, l2, f2, l3, by rw [hsplit]; rfl, hf1, hf2,
        by rw [dupsGo_cons_none hf]; exact hres⟩
    | some v =>
      have hnames : filesUsernames (f :: rest) = v :: filesUsernames rest := by
        unfold filesUsernames
        rw [List.filterMap_cons, hf]
      rw [hnames] at hg hfresh hcount huniq
      have hv := hg v (List.mem_cons_self _ _)
      have hobj : jsObjGet acc v = none := by
        unfold jsObjGet
        rw [hfresh v (List.mem_cons_self _ _), if_neg]
        simpa using hv.1
      by_cases hvu : v = u₀
      · obtain ⟨l1, f2, l2, hsplit, hf2, hres⟩ :=
          dupsGo_one rest (accSet acc v f.1) u₀ f.1
            (fun w hw => hg w (List.mem_cons_of_mem _ hw))
            (by rw [hvu, accGet_accSet_self])
            (hpaths f (List.mem_cons_self _ _))
            (fun w hw hwne => by
              rw [accGet_accSet_ne acc v w f.1
                (fun he => hwne (he.trans hvu))]
              exact hfresh w (List.mem_cons_of_mem _ hw))
            (by rw [hvu, List.count_cons_self] at hcount; omega)
            (fun w hw hwne => by
              have h1 := huniq w (List.mem_cons_of_mem _ hw) hwne
              rw [List.count_cons_of_ne
                (fun he => hwne (he.trans hvu))] at h1
              exact h1)
        refine ⟨[], f, l1, f2, l2, by rw [hsplit]; rfl,
          by rw [hf, hvu], hf2, ?_⟩
        rw [dupsGo_cons_fresh hf hv.2 hobj]
        exact hres
      · have hvnotin : v ∉ filesUsernames rest := by
          have h1 := huniq v (List.mem_cons_self _ _) hvu
          rw [List.count_cons_self] at h1
          exact List.count_eq_zero.mp (by omega)
        obtain ⟨l1, f1, l2, f2, l3, hsplit, hf1, hf2, hres⟩ :=
          ih (accSet acc v f.1) u₀
            (fun w hw => hg w (List.mem_cons_of_mem _ hw))
            (fun x hx => hpaths x (List.mem_cons_of_mem _ hx))
            (fun w hw => by
              rw [accGet_accSet_ne acc v w f.1
                (fun he => hvnotin (by rw [← he]; exact hw))]
              exact hfresh w (List.mem_cons_of_mem _ hw))
            (by rw [List.count_cons_of_ne (fun he => hvu he.symm)] at hcount
                exact hcount)
            (fun w hw hwne => by
              have h1 := huniq w (List.mem_cons_of_mem _ hw) hwne
              rw [List.count_cons_of_ne
                (fun he => hvnotin (by rw [← he]; exact hw))] at h1
              exact h1)
        exact ⟨f :: l1, f1, l2, f2, l3, by rw [hsplit]; rfl, hf1, hf2,
          by rw [dupsGo_cons_fresh hf hv.2 hobj]; exact hres⟩

/-! ## checkDomainLimits lemmas -/

/-- Through the counting loop, a non-prototype username's entry tracks
exactly how often it has been seen. -/
theorem countFold_go : ∀ (files : List (String × Option String))
    (acc : List (String × JsCount)) (u : String),
    ¬ u ∈ objProtoKeys → u ≠ "" → ∀ k : Nat,
    accGet u acc = (if k = 0 then none else some (JsCount.num k)) →
    accGet u (files.foldl countStep acc) =
      (if k + (filesUsernames files).count u = 0 then none
       else some (JsCount.num (k + (filesUsernames files).count u))) := by
  intro files
  induction files with
  | nil =>
    intro acc u _ _ k hacc
    simpa [filesUsernames] using hacc
  | cons f rest ih =>
    intro acc u hproto hne k hacc
    rw [List.foldl_cons]
    cases hf : f.2 with
    | none =>
      have hstep : countStep acc f = acc := by
        simp [countStep, hf]
      have hnames : filesUsernames (f :: rest) = filesUsernames rest := by
        unfold filesUsernames
        rw [List.filterMap_cons, hf]
      rw [hstep, hnames]
      exact ih acc u hproto hne k hacc
    | some v =>
      have hnames : filesUsernames (f :: rest) = v :: filesUsernames rest := by
        unfold filesUsernames
        rw [List.filterMap_cons, hf]
      rw [hnames]
      by_cases hve : v = ""
      · have hstep : countStep acc f = acc := by
          simp [countStep, hf, hve]
        rw [hstep, List.count_cons_of_ne (fun he => hne (he.trans hve))]
        exact ih acc u hproto hne k hacc
      · have hstep : countStep acc f =
            accSet acc v (jsIncr (jsCountGet acc v)) := by
          simp [countStep, hf, hve]
        rw [hstep]
        by_cases hvu : v = u
        · subst hvu
          have hincr : jsIncr (jsCountGet acc v) = JsCount.num (k + 1) := by
            unfold jsCountGet
            rw [hacc]
            by_cases hk : k = 0
            · subst hk
              simp [jsIncr, hproto]
            · rw [if_neg hk]
              simp [jsIncr, hk]
          rw [hincr]
          rw [List.count_cons_self]
          have harith : k + ((filesUsernames rest).count v + 1) =
              (k + 1) + (filesUsernames rest).count v := by omega
          rw [harith]
          apply ih _ v hproto hne (k + 1)
          rw [if_neg (Nat.succ_ne_zero k)]
          exact accGet_accSet_self acc v (JsCount.num (k + 1))
        · rw [List.count_cons_of_ne (fun he => hvu he.symm)]
          apply ih _ u hproto hne k
          rw [accGet_accSet_ne acc v u _ (fun he => hvu he.symm)]
          exact hacc

/-- The final count table holds a non-prototype username exactly when it
was seen, with its exact numeric count. -/
theorem countFold_char (files : List (String × Option String)) (u : String)
    (hproto : ¬ u ∈ objProtoKeys) (hne : u ≠ "") :
    accGet u (countFold files) =
      (if (filesUsernames files).count u = 0 then none
       else some (JsCount.num ((filesUsernames files).count u))) := by
  have h := countFold_go files [] u hproto hne 0 (by simp [accGet])
  simpa using h

/-! ## Username validator lemmas and the rule classes named by the
specification -/

/-- The label contains an uppercase letter. -/
def hasUpperCh (u : String) : Bool :=
  u.data.any (fun c => 'A' ≤ c && c ≤ 'Z')

/-- The label contains an underscore. -/
def hasUnderscoreCh (u : String) : Bool :=
  u.data.any (fun c => c = '_')

/-- The character-class rule is broken: some character is outside
[a-z0-9-]. -/
def charsetRuleBroken (u : String) : Bool :=
  u.data.any (fun c => !lowerAlnumHyphen c)

/-- The hyphen-placement rule is broken. -/
def edgeHyphenRuleBroken (u : String) : Bool :=
  strStartsWith u "-" || strEndsWith u "-"

/-- The consecutive-hyphen rule is broken. -/
def doubleHyphenRuleBroken (u : String) : Bool :=
  containsSubstr u "--"

/-- The length rule is broken. -/
def lengthRuleBroken (u : String) : Bool :=
  decide (u.length < 1) || decide (u.length > 63)

/-- Does the returned reject reason name a rule the label actually
breaks?  (The specification's reading of "a reason naming the specific
rule broken".) -/
def reasonNamesBrokenRule (u : String) : Bool :=
  match (isValidUsername u).reason with
  | some m =>
    (m = charsetMsg && charsetRuleBroken u) ||
    (m = edgeHyphenMsg && edgeHyphenRuleBroken u) ||
    (m = doubleHyphenMsg && doubleHyphenRuleBroken u) ||
    (m = lengthMsg && lengthRuleBroken u)
  | none => false

/-- An uppercase letter is outside the username character class. -/
theorem upper_not_allowed {c : Char} (h1 : 'A' ≤ c) (h2 : c ≤ 'Z') :
    lowerAlnumHyphen c = false := by
  unfold lowerAlnumHyphen
  have ha : ¬('a' ≤ c) := not_le.mpr (lt_of_le_of_lt h2 (by decide))
  have h9 : ¬(c ≤ '9') := not_le.mpr (lt_of_lt_of_le (by decide) h1)
  have hh : ¬(c = '-') := by
    intro he
    rw [he] at h1
    exact absurd h1 (by decide)
  simp [ha, h9, hh]

/-- An uppercase letter breaks the character-class rule. -/
theorem charset_of_upper {u : String} (h : hasUpperCh u = true) :
    charsetRuleBroken u = true := by
  unfold hasUpperCh at h
  unfold charsetRuleBroken
  rw [List.any_eq_true] at h ⊢
  obtain ⟨c, hc, hcc⟩ := h
  rw [Bool.and_eq_true, decide_eq_true_eq, decide_eq_true_eq] at hcc
  exact ⟨c, hc, by simp [upper_not_allowed hcc.1 hcc.2]⟩

/-- An underscore breaks the character-class rule. -/
theorem charset_of_underscore {u : String} (h : hasUnderscoreCh u = true) :
    charsetRuleBroken u = true := by
  unfold hasUnderscoreCh at h
  unfold charsetRuleBroken
  rw [List.any_eq_true] at h ⊢
  obtain ⟨c, hc, hcc⟩ := h
  rw [decide_eq_true_eq] at hcc
  subst hcc
  exact ⟨'_', hc, by decide⟩

/-- A broken character class fails the regex test. -/
theorem regexTest_false_of_charset {u : String}
    (h : charsetRuleBroken u = true) : usernameRegexTest u = false := by
  unfold charsetRuleBroken at h
  rw [List.any_eq_true] at h
  obtain ⟨c, hc, hcc⟩ := h
  have hfa : lowerAlnumHyphen c = false := by simpa using hcc
  have hall : u.data.all lowerAlnumHyphen = false := by
    cases hx : u.data.all lowerAlnumHyphen with
    | false => rfl
    | true => exact absurd (List.all_eq_true.mp hx c hc) (by simp [hfa])
  unfold usernameRegexTest
  simp [hall]

/-- A non-empty string has characters. -/
theorem data_ne_nil_of_ne_empty {u : String} (h : u ≠ "") : u.data ≠ [] :=
  fun hd => h (String.ext (hd.trans rfl))

/-- An in-class non-empty string passes the regex test. -/
theorem regexTest_true {u : String}
    (hall : u.data.all lowerAlnumHyphen = true) (hne : u.data ≠ []) :
    usernameRegexTest u = true := by
  unfold usernameRegexTest
  rw [hall]
  cases hd : u.data with
  | nil => exact absurd hd hne
  | cons c cs => rfl

/-- Rejection with the character-class reason. -/
theorem isValidUsername_charset {u : String}
    (h : charsetRuleBroken u = true) :
    isValidUsername u = { valid := false, reason := some charsetMsg } := by
  unfold isValidUsername
  rw [regexTest_false_of_charset h]
  rfl

/-- Rejection with the hyphen-placement reason. -/
theorem isValidUsername_edge {u : String}
    (hall : u.data.all lowerAlnumHyphen = true) (hne : u ≠ "")
    (hedge : edgeHyphenRuleBroken u = true) :
    isValidUsername u = { valid := false, reason := some edgeHyphenMsg } := by
  have hreg := regexTest_true hall (data_ne_nil_of_ne_empty hne)
  unfold edgeHyphenRuleBroken at hedge
  simp [isValidUsername, hreg, hedge]

/-- Rejection with the consecutive-hyphen reason. -/
theorem isValidUsername_double {u : String}
    (hall : u.data.all lowerAlnumHyphen = true) (hne : u ≠ "")
    (hnedge : edgeHyphenRuleBroken u = false)
    (hdd : doubleHyphenRuleBroken u = true) :
    isValidUsername u = { valid := false, reason := some doubleHyphenMsg } := by
  have hreg := regexTest_true hall (data_ne_nil_of_ne_empty hne)
  unfold edgeHyphenRuleBroken at hnedge
  rw [Bool.or_eq_false_iff] at hnedge
  unfold doubleHyphenRuleBroken at hdd
  simp [isValidUsername, hreg, hnedge.1, hnedge.2, hdd]

/-- Rejection with the length reason. -/
theorem isValidUsername_length {u : String}
    (hall : u.data.all lowerAlnumHyphen = true)
    (hnedge : edgeHyphenRuleBroken u = false)
    (hndd : doubleHyphenRuleBroken u = false)
    (hlen : u.length > 63) :
    isValidUsername u = { valid := false, reason := some lengthMsg } := by
  have hne : u.data ≠ [] := by
    intro hd
    rw [show u.length = u.data.length from rfl, hd] at hlen
    simp at hlen
  have hreg := regexTest_true hall hne
  unfold edgeHyphenRuleBroken at hnedge
  rw [Bool.or_eq_false_iff] at hnedge
  unfold doubleHyphenRuleBroken at hndd
  have h63 : (decide (u.length > 63)) = true := decide_eq_true hlen
  simp [isValidUsername, hreg, hnedge.1, hnedge.2, hndd, h63]

/-- Acceptance of a well-formed label. -/
theorem isValidUsername_accept {u : String}
    (hall : u.data.all lowerAlnumHyphen = true)
    (hnedge : edgeHyphenRuleBroken u = false)
    (hndd : doubleHyphenRuleBroken u = false)
    (hlen1 : 1 ≤ u.length) (hlen63 : u.length ≤ 63) :
    isValidUsername u = { valid := true, reason := none } := by
  have hne : u.data ≠ [] := by
    intro hd
    rw [show u.length = u.data.length from rfl, hd] at hlen1
    simp at hlen1
  have hreg := regexTest_true hall hne
  unfold edgeHyphenRuleBroken at hnedge
  rw [Bool.or_eq_false_iff] at hnedge
  unfold doubleHyphenRuleBroken at hndd
  have hl1 : (decide (u.length < 1)) = false := by
    simp
    omega
  have hl63 : (decide (u.length > 63)) = false := by
    simp
    omega
  simp [isValidUsername, hreg, hnedge.1, hnedge.2, hndd, hl1, hl63]
  omega

/-! ## The claims -/

/-- C1: Reconciliation is idempotent: for every set of declarations (the
desired names being unique, as the validator guarantees, and the zone
carrying provider-unique record ids), a second deployDNS diff against the
remote state produced by the first run issues zero create, update and
delete operations, so every desired entry is classified unchanged. -/
theorem c1_reconciliation_idempotent (Z ts : String) (config : DeployConfig)
    (files : List (String × DomainFileData)) (state0 : List DNSRecord)
    (hdn : ((getDomainFiles Z config files).map
      (fun d => d.subdomain)).Nodup)
    (hri : (state0.map (fun r => r.id)).Nodup) :
    deployOps
      (getExistingRecords Z
        (applyOps ts state0
          (deployOps (getExistingRecords Z state0)
            (getDomainFiles Z config files))))
      (getDomainFiles Z config files) = [] ∧
    createdCount
      (deployOps
        (getExistingRecords Z
          (applyOps ts state0
            (deployOps (getExistingRecords Z state0)
              (getDomainFiles Z config files))))
        (getDomainFiles Z config files)) = 0 ∧
    updatedCount
      (deployOps
        (getExistingRecords Z
          (applyOps ts state0
            (deployOps (getExistingRecords Z state0)
              (getDomainFiles Z config files))))
        (getDomainFiles Z config files)) = 0 ∧
    deletedCount
      (deployOps
        (getExistingRecords Z
          (applyOps ts state0
            (deployOps (getExistingRecords Z state0)
              (getDomainFiles Z config files))))
        (getDomainFiles Z config files)) = 0 := by
  have h := deployRunConverges Z ts state0 (getDomainFiles Z config files)
    (getDomainFiles_shape Z config files) hdn hri
  refine ⟨h, ?_, ?_, ?_⟩ <;> rw [h] <;> rfl

/-- Domain files of the C1 instance. -/
def c1Files : List (String × DomainFileData) :=
  [("alice.json", DomainFileData.withRecords (some "alice.github.io"))]

/-- Zone state of the C1 instance: a stale managed record, a managed
record with outdated content, and an unmanaged record. -/
def c1State0 : List DNSRecord :=
  [{ id := 5, name := "old.loves-to.dev", content := some "x.y"
     comment := some "Managed by loves-to.dev (user) - t0" },
   { id := 6, name := "alice.loves-to.dev", content := some "stale.example.com"
     comment := some "Managed by loves-to.dev (user) - t0" },
   { id := 7, name := "keep.loves-to.dev", content := some "z.w"
     comment := none }]

/-- Witness for C1 at a concrete zone and declaration set. -/
theorem c1_reconciliation_idempotent_witness :
    deployOps
      (getExistingRecords "loves-to.dev"
        (applyOps "t1" c1State0
          (deployOps (getExistingRecords "loves-to.dev" c1State0)
            (getDomainFiles "loves-to.dev" ⟨["www"], []⟩ c1Files))))
      (getDomainFiles "loves-to.dev" ⟨["www"], []⟩ c1Files) = [] ∧
    createdCount
      (deployOps
        (getExistingRecords "loves-to.dev"
          (applyOps "t1" c1State0
            (deployOps (getExistingRecords "loves-to.dev" c1State0)
              (getDomainFiles "loves-to.dev" ⟨["www"], []⟩ c1Files))))
        (getDomainFiles "loves-to.dev" ⟨["www"], []⟩ c1Files)) = 0 ∧
    updatedCount
      (deployOps
        (getExistingRecords "loves-to.dev"
          (applyOps "t1" c1State0
            (deployOps (getExistingRecords "loves-to.dev" c1State0)
              (getDomainFiles "loves-to.dev" ⟨["www"], []⟩ c1Files))))
        (getDomainFiles "loves-to.dev" ⟨["www"], []⟩ c1Files)) = 0 ∧
    deletedCount
      (deployOps
        (getExistingRecords "loves-to.dev"
          (applyOps "t1" c1State0
            (deployOps (getExistingRecords "loves-to.dev" c1State0)
              (getDomainFiles "loves-to.dev" ⟨["www"], []⟩ c1Files))))
        (getDomainFiles "loves-to.dev" ⟨["www"], []⟩ c1Files)) = 0 :=
  c1_reconciliation_idempotent "loves-to.dev" "t1" ⟨["www"], []⟩ c1Files
    c1State0 (by decide) (by decide)

/-- Domain files of the C2 instance: two independent names. -/
def c2Files : List (String × DomainFileData) :=
  [("a.json", DomainFileData.withRecords (some "a.github.io")),
   ("b.json", DomainFileData.withRecords (some "b.github.io"))]

/-- Failure oracle of the C2 instance: the provider call for the first
name rejects. -/
def c2Fails : DNSOp → Bool := fun op => opName op = "a.loves-to.dev"

/-- C2 fails on the code: when the provider call for one name throws, the
rejection reaches deployDNS's try/catch, which exits the process; the
other name's call, although planned, is never attempted, and no summary
with counts is printed.  The claim's per-name error collection and
partial-failure tolerance do not exist. -/
theorem c2_counterexample :
    deployRun c2Fails [] (getDomainFiles "loves-to.dev" ⟨[], []⟩ c2Files) =
      { attempted := [DNSOp.create "a.loves-to.dev" (some "a.github.io") "user"]
        failedOp := some (DNSOp.create "a.loves-to.dev" (some "a.github.io") "user")
        summaryShown := false
        exitCode := 1 } ∧
    DNSOp.create "b.loves-to.dev" (some "b.github.io") "user" ∈
      deployOps [] (getDomainFiles "loves-to.dev" ⟨[], []⟩ c2Files) ∧
    DNSOp.create "b.loves-to.dev" (some "b.github.io") "user" ∉
      (deployRun c2Fails []
        (getDomainFiles "loves-to.dev" ⟨[], []⟩ c2Files)).attempted := by
  decide

/-- C2 amended: a run with no failing provider call attempts every
operation, prints the summary and exits 0; a run whose first failing call
is op attempts exactly the calls before op plus op itself, prints no
summary, and exits 1 — the failure aborts the whole run instead of being
collected per name. -/
theorem c2_failure_aborts_run (fails : DNSOp → Bool)
    (existing : List DNSRecord) (domains : List DomainEntry) :
    ((∀ op ∈ deployOps existing domains, fails op = false) →
      deployRun fails existing domains =
        { attempted := deployOps existing domains, failedOp := none
          summaryShown := true, exitCode := 0 }) ∧
    (∀ (pre : List DNSOp) (op : DNSOp) (post : List DNSOp),
      deployOps existing domains = pre ++ op :: post →
      (∀ o ∈ pre, fails o = false) → fails op = true →
      deployRun fails existing domains =
        { attempted := pre ++ [op], failedOp := some op
          summaryShown := false, exitCode := 1 }) := by
  constructor
  · intro h
    unfold deployRun
    rw [runOps_all_ok fails _ h]
  · intro pre op post heq hok hf
    unfold deployRun
    rw [heq, runOps_first_fail fails pre op post hok hf]

/-- Witness for the amended C2 at a concrete run with no failures. -/
theorem c2_failure_aborts_run_witness :
    deployRun (fun _ => false) []
      (getDomainFiles "loves-to.dev" ⟨[], []⟩ c2Files) =
      { attempted := deployOps []
          (getDomainFiles "loves-to.dev" ⟨[], []⟩ c2Files)
        failedOp := none, summaryShown := true, exitCode := 0 } :=
  (c2_failure_aborts_run (fun _ => false) []
    (getDomainFiles "loves-to.dev" ⟨[], []⟩ c2Files)).1 (fun _ _ => rfl)

/-- C3: Untagged collision safety: a remote record bearing a desired name
but lacking the ownership tag is excluded from the fetched actual state;
when no tagged record bears that name, the run issues a create for the
name, and every operation the run issues against that name is a create —
never an update or a delete of the untagged record. -/
theorem c3_untagged_collision_create (Z : String) (state0 : List DNSRecord)
    (domains : List DomainEntry) (d : DomainEntry) (r : DNSRecord)
    (hd : d ∈ domains) (hr : r ∈ state0) (hname : r.name = d.subdomain)
    (huntag : commentHasTag r.comment = false)
    (hnomanaged : mapGet (getExistingRecords Z state0) d.subdomain = none) :
    r ∉ getExistingRecords Z state0 ∧
    DNSOp.create d.subdomain d.target d.type ∈
      deployOps (getExistingRecords Z state0) domains ∧
    (∀ op ∈ deployOps (getExistingRecords Z state0) domains,
      opName op = d.subdomain → ∃ c ty, op = DNSOp.create d.subdomain c ty) := by
  refine ⟨?_, ?_, ?_⟩
  · intro hmem
    have hm := (List.mem_filter.mp hmem).2
    unfold isManagedRec at hm
    rw [huntag] at hm
    simp at hm
  · show DNSOp.create d.subdomain d.target d.type ∈
      desiredOps (getExistingRecords Z state0) domains ++
        deleteOps (getExistingRecords Z state0) domains
    apply List.mem_append_left
    apply List.mem_filterMap.mpr
    refine ⟨d, hd, ?_⟩
    unfold opFor
    rw [hnomanaged]
  · intro op hop hopname
    rcases List.mem_append.mp hop with h1 | h2
    · obtain ⟨d', hd', hfd'⟩ := List.mem_filterMap.mp h1
      have hn' := opFor_name hfd'
      have hsub : d'.subdomain = d.subdomain := by rw [← hn', hopname]
      rcases opFor_kind hfd' with ⟨_, hcr⟩ | ⟨r', hr', _⟩
      · exact ⟨d'.target, d'.type, by rw [hcr, hsub]⟩
      · exfalso
        rw [hsub, hnomanaged] at hr'
        cases hr'
    · exfalso
      obtain ⟨rs, hrs, hde⟩ := List.mem_map.mp h2
      have hrsE : rs ∈ getExistingRecords Z state0 :=
        List.mem_of_mem_filter hrs
      have hop2 : opName op = rs.name := by rw [← hde]; rfl
      have hrsname : rs.name = d.subdomain := hop2.symm.trans hopname
      obtain ⟨r', hr'⟩ := mapGet_isSome_of_mem hrsE hrsname
      rw [hnomanaged] at hr'
      cases hr'

/-- Zone state of the C3 instance: one hand-made record on the desired
name. -/
def c3State0 : List DNSRecord :=
  [{ id := 9, name := "alice.loves-to.dev", content := some "old.example.com"
     comment := some "hand-made" }]

/-- Desired entry of the C3 instance. -/
def c3Entry : DomainEntry :=
  { username := "alice", subdomain := "alice.loves-to.dev"
    target := some "alice.github.io", type := "user" }

/-- Witness for C3 at a concrete zone with an untagged colliding record. -/
theorem c3_untagged_collision_create_witness :
    ({ id := 9, name := "alice.loves-to.dev", content := some "old.example.com"
       comment := some "hand-made" } : DNSRecord) ∉
      getExistingRecords "loves-to.dev" c3State0 ∧
    DNSOp.create c3Entry.subdomain c3Entry.target c3Entry.type ∈
      deployOps (getExistingRecords "loves-to.dev" c3State0) [c3Entry] ∧
    (∀ op ∈ deployOps (getExistingRecords "loves-to.dev" c3State0) [c3Entry],
      opName op = c3Entry.subdomain →
      ∃ c ty, op = DNSOp.create c3Entry.subdomain c ty) :=
  c3_untagged_collision_create "loves-to.dev" c3State0 [c3Entry] c3Entry
    { id := 9, name := "alice.loves-to.dev", content := some "old.example.com"
      comment := some "hand-made" }
    (by decide) (by decide) (by decide) (by decide) (by decide)

/-- C4: The diff is exact per name: a single declaration against an empty
remote state issues exactly one create with the qualified name and the
declared target; with the managed record present and the target changed
it issues exactly one update and nothing else; and a managed record
absent from the declarations issues exactly one delete, counted under
deleted and not under created, updated or unchanged. -/
theorem c4_exact_diff :
    deployOps []
      (getDomainFiles "loves-to.dev" ⟨[], []⟩
        [("alice.json", DomainFileData.withRecords (some "alice.github.io"))]) =
      [DNSOp.create "alice.loves-to.dev" (some "alice.github.io") "user"] ∧
    deployOps
      (getExistingRecords "loves-to.dev"
        [{ id := 7, name := "alice.loves-to.dev"
           content := some "alice.github.io"
           comment := some "Managed by loves-to.dev (user) - t0" }])
      (getDomainFiles "loves-to.dev" ⟨[], []⟩
        [("alice.json", DomainFileData.withRecords (some "alice2.github.io"))]) =
      [DNSOp.update 7 "alice.loves-to.dev" (some "alice2.github.io") "user"] ∧
    deployOps
      (getExistingRecords "loves-to.dev"
        [{ id := 7, name := "alice.loves-to.dev"
           content := some "alice.github.io"
           comment := some "Managed by loves-to.dev (user) - t0" }])
      (getDomainFiles "loves-to.dev" ⟨[], []⟩ []) =
      [DNSOp.delete 7 "alice.loves-to.dev"] ∧
    createdCount [DNSOp.delete 7 "alice.loves-to.dev"] = 0 ∧
    updatedCount [DNSOp.delete 7 "alice.loves-to.dev"] = 0 ∧
    deletedCount [DNSOp.delete 7 "alice.loves-to.dev"] = 1 := by
  decide

/-- C5 fails on the code at the empty label: length 0 is a violation of
the length rule (1..63) only, yet the validator rejects it with the
character-class message, because the regex anchors one-or-more characters;
the returned reason therefore does not name the rule that was broken. -/
theorem c5_counterexample :
    lengthRuleBroken "" = true ∧
    charsetRuleBroken "" = false ∧
    (isValidUsername "").valid = false ∧
    (isValidUsername "").reason = some charsetMsg ∧
    reasonNamesBrokenRule "" = false := by
  decide

/-- C5 amended: well-formed labels are accepted; a label with an
uppercase letter or underscore (more generally any character outside
[a-z0-9-]) is rejected with the character-class reason; an in-class label
with a leading/trailing hyphen, a double hyphen, or length above 63 is
rejected with exactly the reason naming that rule; the empty label alone
is rejected with the character-class message although only the length
rule is broken. -/
theorem c5_username_validator (u : String) :
    (u.data.all lowerAlnumHyphen = true → edgeHyphenRuleBroken u = false →
      doubleHyphenRuleBroken u = false → 1 ≤ u.length → u.length ≤ 63 →
      isValidUsername u = { valid := true, reason := none }) ∧
    (hasUpperCh u = true →
      isValidUsername u = { valid := false, reason := some charsetMsg } ∧
      reasonNamesBrokenRule u = true) ∧
    (hasUnderscoreCh u = true →
      isValidUsername u = { valid := false, reason := some charsetMsg } ∧
      reasonNamesBrokenRule u = true) ∧
    (charsetRuleBroken u = true →
      isValidUsername u = { valid := false, reason := some charsetMsg } ∧
      reasonNamesBrokenRule u = true) ∧
    (u.data.all lowerAlnumHyphen = true → u ≠ "" →
      edgeHyphenRuleBroken u = true →
      isValidUsername u = { valid := false, reason := some edgeHyphenMsg } ∧
      reasonNamesBrokenRule u = true) ∧
    (u.data.all lowerAlnumHyphen = true → u ≠ "" →
      edgeHyphenRuleBroken u = false → doubleHyphenRuleBroken u = true →
      isValidUsername u = { valid := false, reason := some doubleHyphenMsg } ∧
      reasonNamesBrokenRule u = true) ∧
    (u.data.all lowerAlnumHyphen = true → edgeHyphenRuleBroken u = false →
      doubleHyphenRuleBroken u = false → u.length > 63 →
      isValidUsername u = { valid := false, reason := some lengthMsg } ∧
      reasonNamesBrokenRule u = true) ∧
    (u = "" →
      isValidUsername u = { valid := false, reason := some charsetMsg }) := by
  have hcharset : charsetRuleBroken u = true →
      isValidUsername u = { valid := false, reason := some charsetMsg } ∧
      reasonNamesBrokenRule u = true := by
    intro h
    have he := isValidUsername_charset h
    refine ⟨he, ?_⟩
    unfold reasonNamesBrokenRule
    rw [he]
    simp [h]
  refine ⟨?_, ?_, ?_, hcharset, ?_, ?_, ?_, ?_⟩
  · intro hall hnedge hndd h1 h63
    exact isValidUsername_accept hall hnedge hndd h1 h63
  · intro h
    exact hcharset (charset_of_upper h)
  · intro h
    exact hcharset (charset_of_underscore h)
  · intro hall hne hedge
    have he := isValidUsername_edge hall hne hedge
    refine ⟨he, ?_⟩
    unfold reasonNamesBrokenRule
    rw [he]
    simp [hedge, edgeHyphenMsg, charsetMsg]
  · intro hall hne hnedge hdd
    have he := isValidUsername_double hall hne hnedge hdd
    refine ⟨he, ?_⟩
    unfold reasonNamesBrokenRule
    rw [he]
    simp [hdd, doubleHyphenMsg, charsetMsg, edgeHyphenMsg]
  · intro hall hnedge hndd hlen
    have he := isValidUsername_length hall hnedge hndd hlen
    refine ⟨he, ?_⟩
    unfold reasonNamesBrokenRule
    rw [he]
    have hbr : lengthRuleBroken u = true := by
      unfold lengthRuleBroken
      simp
      omega
    simp [hbr, lengthMsg, charsetMsg, edgeHyphenMsg, doubleHyphenMsg]
  · intro he
    subst he
    decide

/-- Witness for the amended C5 at concrete labels of every class. -/
theorem c5_username_validator_witness :
    isValidUsername "my-cool-label3" = { valid := true, reason := none } ∧
    isValidUsername "Alice" = { valid := false, reason := some charsetMsg } ∧
    isValidUsername "a_b" = { valid := false, reason := some charsetMsg } ∧
    isValidUsername "-ab" = { valid := false, reason := some edgeHyphenMsg } ∧
    isValidUsername "a--b" =
      { valid := false, reason := some doubleHyphenMsg } :=
  ⟨((c5_username_validator "my-cool-label3").1 (by decide) (by decide)
      (by decide) (by decide) (by decide)),
   ((c5_username_validator "Alice").2.1 (by decide)).1,
   ((c5_username_validator "a_b").2.2.1 (by decide)).1,
   ((c5_username_validator "-ab").2.2.2.2.1 (by decide) (by decide)
      (by decide)).1,
   ((c5_username_validator "a--b").2.2.2.2.2.1 (by decide) (by decide)
      (by decide) (by decide)).1⟩

/-- Files of the C6 instance: two declarations of the label constructor,
a label the syntax rules accept. -/
def c6Files : List (String × Option String) :=
  [("domains/constructor.json", some "constructor"),
   ("domains/other.json", some "constructor")]

/-- C6 fails on the code: with exactly two files declaring the label
constructor, the usernames accumulator is a bare object, the lookup finds
the inherited Object.prototype member and is truthy already for the first
file, so the loop reports two duplicate diagnostics, each pairing the
inherited value with one file path — not one diagnostic naming both
paths. -/
theorem c6_counterexample :
    isValidUsername "constructor" = { valid := true, reason := none } ∧
    checkForDuplicates c6Files =
      [{ username := "constructor"
         files := [JsPathVal.inherited,
                   JsPathVal.path "domains/constructor.json"] },
       { username := "constructor"
         files := [JsPathVal.inherited,
                   JsPathVal.path "domains/other.json"] }] ∧
    (checkForDuplicates c6Files).length ≠ 1 := by
  decide

/-- C6 amended: for a declaration set in which one username occurs on
exactly two files, every other username occurs once, and no username is
an Object.prototype property name or empty (and file paths are
non-empty), the batch reports exactly one duplicate diagnostic naming
both file paths in file order. -/
theorem c6_duplicate_diagnostic (files : List (String × Option String))
    (u₀ : String)
    (hg : ∀ u ∈ filesUsernames files, ¬ u ∈ objProtoKeys ∧ u ≠ "")
    (hpaths : ∀ f ∈ files, f.1 ≠ "")
    (hcount : (filesUsernames files).count u₀ = 2)
    (huniq : ∀ v ∈ filesUsernames files, v ≠ u₀ →
      (filesUsernames files).count v = 1) :
    ∃ l1 f1 l2 f2 l3, files = l1 ++ f1 :: (l2 ++ f2 :: l3) ∧
      f1.2 = some u₀ ∧ f2.2 = some u₀ ∧
      checkForDuplicates files =
        [{ username := u₀
           files := [JsPathVal.path f1.1, JsPathVal.path f2.1] }] :=
  dupsGo_two files [] u₀ hg hpaths (fun _ _ => rfl) hcount huniq

/-- Files of the C6 witness: ann declared twice among others. -/
def c6GoodFiles : List (String × Option String) :=
  [("domains/ann.json", some "ann"), ("domains/bob.json", some "bob"),
   ("domains/ann2.json", some "ann")]

/-- Witness for the amended C6 at a concrete declaration set. -/
theorem c6_duplicate_diagnostic_witness :
    ∃ l1 f1 l2 f2 l3, c6GoodFiles = l1 ++ f1 :: (l2 ++ f2 :: l3) ∧
      f1.2 = some "ann" ∧ f2.2 = some "ann" ∧
      checkForDuplicates c6GoodFiles =
        [{ username := "ann"
           files := [JsPathVal.path f1.1, JsPathVal.path f2.1] }] :=
  c6_duplicate_diagnostic c6GoodFiles "ann" (by decide) (by decide)
    (by decide) (by decide)

/-- Files of the C7 instance: one untrusted owner with two declarations
under an Object.prototype property name. -/
def c7Files : List (String × Option String) :=
  [("domains/a.json", some "constructor"), ("domains/b.json", some "constructor")]

/-- C7 fails on the code: the owner identity constructor appears on two
non-reserved declarations and is not trusted, yet no quota violation is
reported: the count accumulator is a bare object, (obj[u] || 0) + 1 seeds
from the inherited constructor function, string concatenation makes the
count non-numeric, and the non-numeric count fails the count > 1 test. -/
theorem c7_counterexample :
    (filesUsernames c7Files).count "constructor" = 2 ∧
    checkDomainLimits c7Files [] = [] := by
  decide

/-- C7 amended: an owner identity that is not an Object.prototype
property name, appearing on N > 1 declarations while not trusted, is
reported with exactly the count N and the reason naming the owner and the
count; a trusted owner is never reported. -/
theorem c7_quota_violation (files : List (String × Option String))
    (trusted : List String) (u : String) (N : Nat)
    (hproto : ¬ u ∈ objProtoKeys) (hne : u ≠ "") :
    ((filesUsernames files).count u = N → N > 1 →
      trusted.contains u = false →
      { username := u, count := JsCount.num N
        reason := "User \"" ++ u ++ "\" has " ++ toString N ++
          " domains but is not in trusted list (limit: 1)" }
        ∈ checkDomainLimits files trusted) ∧
    (trusted.contains u = true →
      ∀ v ∈ checkDomainLimits files trusted, v.username ≠ u) := by
  constructor
  · intro hcount hN htr
    unfold checkDomainLimits
    apply List.mem_filterMap.mpr
    refine ⟨(u, JsCount.num N), ?_, ?_⟩
    · apply accGet_some_mem
      rw [countFold_char files u hproto hne, hcount, if_neg (by omega)]
    · have hgt : jsCountGt1 (JsCount.num N) = true := by
        simp [jsCountGt1]
        omega
      show (if trusted.contains u then (none : Option LimitViolation)
            else if jsCountGt1 (JsCount.num N) then
              some { username := u, count := JsCount.num N
                     reason := "User \"" ++ u ++ "\" has " ++
                       jsCountStr (JsCount.num N) ++
                       " domains but is not in trusted list (limit: 1)" }
            else none) = some _
      rw [htr, hgt]
      rfl
  · intro htr v hv he
    unfold checkDomainLimits at hv
    obtain ⟨uc, _, heq⟩ := List.mem_filterMap.mp hv
    by_cases hc : trusted.contains uc.1
    · rw [if_pos hc] at heq
      cases heq
    · rw [if_neg hc] at heq
      by_cases hg : jsCountGt1 uc.2
      · rw [if_pos hg] at heq
        cases heq
        exact hc (by rw [show uc.1 = u from he]; exact htr)
      · rw [if_neg hg] at heq
        cases heq

/-- Files of the C7 witness. -/
def c7GoodFiles : List (String × Option String) :=
  [("domains/a.json", some "carol"), ("domains/b.json", some "carol"),
   ("domains/c.json", some "dan")]

/-- Witness for the amended C7 at a concrete declaration set, untrusted
and trusted. -/
theorem c7_quota_violation_witness :
    ({ username := "carol", count := JsCount.num 2
       reason := "User \"carol\" has 2 domains but is not in trusted list (limit: 1)" }
      ∈ checkDomainLimits c7GoodFiles []) ∧
    (∀ v ∈ checkDomainLimits c7GoodFiles ["carol"], v.username ≠ "carol") :=
  ⟨((c7_quota_violation c7GoodFiles [] "carol" 2 (by decide) (by decide)).1
      (by decide) (by decide) (by decide)),
   ((c7_quota_violation c7GoodFiles ["carol"] "carol" 2 (by decide)
      (by decide)).2 (by decide))⟩

/-- A fully valid declaration file owned by alice. -/
def aliceFileJson : DomainFileJson :=
  DomainFileJson.parsed
    (some { username := some "alice", email := some "alice@example.com" })
    (some { cname := some "alice.github.io" })

/-- C8 has no implementation: validateDomainFile takes only the reserved
list, the filename and the parsed file — there is no requester-identity
parameter anywhere in its signature or body, so the submitting identity
(exported as PR_AUTHOR by the workflow but never read) cannot influence
the result, and a well-formed file owned by someone else passes with no
security diagnostic. -/
theorem c8_no_requester_check :
    validateDomainFile [] "alice" aliceFileJson =
      { success := true, errors := [] } := by
  decide

/-- Declaration files of the C9 instance: the single user alice, whose
label also sits on the reserved list. -/
def c9Files : List (String × DomainFileData) :=
  [("alice.json", DomainFileData.withRecords (some "alice.github.io"))]

/-- C9 fails on the code: when a label is both reserved and declared by
a user file, getDomainFiles emits two desired entries with the same
fully-qualified name, and one run issues two create operations against
that name. -/
theorem c9_counterexample :
    ((deployOps (getExistingRecords "loves-to.dev" [])
        (getDomainFiles "loves-to.dev" { reserved := ["alice"], trusted := [] }
          c9Files)).map opName) =
      ["alice.loves-to.dev", "alice.loves-to.dev"] ∧
    ¬ ((deployOps (getExistingRecords "loves-to.dev" [])
        (getDomainFiles "loves-to.dev" { reserved := ["alice"], trusted := [] }
          c9Files)).map opName).Nodup := by
  decide

/-- C9 amended: whenever the desired entries built from the reserved
list and the declaration files carry pairwise distinct fully-qualified
names (in particular whenever no reserved label collides with a user
file) and the fetched zone records have distinct names, no two provider
operations of the run target the same fully-qualified name. -/
theorem c9_unique_op_names (Z : String) (config : DeployConfig)
    (files : List (String × DomainFileData)) (state0 : List DNSRecord)
    (hdn : ((getDomainFiles Z config files).map (fun d => d.subdomain)).Nodup)
    (hrn : (state0.map (fun r => r.name)).Nodup) :
    ((deployOps (getExistingRecords Z state0)
        (getDomainFiles Z config files)).map opName).Nodup := by
  apply deployOps_names_nodup _ _ hdn
  apply List.Nodup.sublist _ hrn
  exact List.Sublist.map _ (List.filter_sublist state0)

/-- Witness for the amended C9 at a concrete configuration without a
reserved/user collision. -/
theorem c9_unique_op_names_witness :
    ((deployOps (getExistingRecords "loves-to.dev" [])
        (getDomainFiles "loves-to.dev" { reserved := ["www"], trusted := [] }
          c9Files)).map opName).Nodup :=
  c9_unique_op_names "loves-to.dev" { reserved := ["www"], trusted := [] }
    c9Files [] (by decide) (by decide)

/-- C10 overstates the drop: a domains file whose records object parses
but carries no CNAME value is NOT dropped — reading
content.records.CNAME yields undefined without throwing, so the entry is
kept with an undefined target (and would be diffed against existing
content). -/
theorem c10_counterexample :
    getDomainFiles "loves-to.dev" { reserved := [], trusted := [] }
      [("x.json", DomainFileData.withRecords none)] =
      [{ username := "x", subdomain := "x.loves-to.dev", target := none
         type := "user" }] ∧
    getDomainFiles "loves-to.dev" { reserved := [], trusted := [] }
      [("x.json", DomainFileData.withRecords none)] ≠ [] := by
  decide

/-- C10 amended: a file that fails to parse, or whose records object is
missing so that the CNAME read throws, is silently dropped — the desired
set is the same as if the file were absent; and when an existing managed
record carries a name no remaining desired entry claims, the same run
issues the delete for it. -/
theorem c10_dropped_files (Z : String) (config : DeployConfig)
    (files₁ files₂ : List (String × DomainFileData)) (fname : String)
    (fdata : DomainFileData) (state0 : List DNSRecord) (r : DNSRecord)
    (hdrop : fdata = DomainFileData.malformed ∨
      fdata = DomainFileData.noRecords) :
    getDomainFiles Z config (files₁ ++ (fname, fdata) :: files₂) =
      getDomainFiles Z config (files₁ ++ files₂) ∧
    (r ∈ getExistingRecords Z state0 →
      (∀ d ∈ getDomainFiles Z config (files₁ ++ files₂),
        d.subdomain ≠ r.name) →
      DNSOp.delete r.id r.name ∈
        deployOps (getExistingRecords Z state0)
          (getDomainFiles Z config (files₁ ++ (fname, fdata) :: files₂))) := by
  have h1 : getDomainFiles Z config (files₁ ++ (fname, fdata) :: files₂) =
      getDomainFiles Z config (files₁ ++ files₂) := by
    unfold getDomainFiles
    congr 1
    rw [List.filter_append, List.filter_append]
    by_cases hj : strEndsWith fname ".json"
    · rcases hdrop with h | h <;> subst h <;> simp [List.filter_cons, hj]
    · simp [List.filter_cons, hj]
  refine ⟨h1, ?_⟩
  intro hr hnone
  rw [h1]
  unfold deployOps
  apply List.mem_append_right
  unfold deleteOps
  apply List.mem_map.mpr
  refine ⟨r, ?_, rfl⟩
  unfold staleRecords
  apply List.mem_filter.mpr
  refine ⟨hr, ?_⟩
  rw [(any_eq_false_iff _ _).mpr hnone]
  rfl

/-- Zone state of the C10 witness: one managed record for the dropped
file's label. -/
def c10State0 : List DNSRecord :=
  [{ id := 3, name := "x.loves-to.dev", content := some "a.b"
     comment := some "Managed by loves-to.dev (user) - t0" }]

/-- The managed record of the C10 witness. -/
def c10Rec : DNSRecord :=
  { id := 3, name := "x.loves-to.dev", content := some "a.b"
    comment := some "Managed by loves-to.dev (user) - t0" }

/-- Witness for the amended C10: the sole domains file throws on the
CNAME read, its desired entry disappears, and its managed record is
deleted in the same run. -/
theorem c10_dropped_files_witness :
    getDomainFiles "loves-to.dev" { reserved := [], trusted := [] }
      ([] ++ ("x.json", DomainFileData.noRecords) :: []) =
      getDomainFiles "loves-to.dev" { reserved := [], trusted := [] }
        ([] ++ []) ∧
    DNSOp.delete c10Rec.id c10Rec.name ∈
      deployOps (getExistingRecords "loves-to.dev" c10State0)
        (getDomainFiles "loves-to.dev" { reserved := [], trusted := [] }
          ([] ++ ("x.json", DomainFileData.noRecords) :: [])) := by
  have h := c10_dropped_files "loves-to.dev" { reserved := [], trusted := [] }
    [] [] "x.json" DomainFileData.noRecords c10State0 c10Rec (Or.inr rfl)
  exact ⟨h.1, h.2 (by decide) (by decide)⟩
